import Mathlib

/-!
Shallow embedding of `src/podcastfy/text_to_speech.py` (class `TextToSpeech`),
with theorems settling the frozen claims about it.

Modelling conventions:
* Strings are `List Char` internally; the public wrappers take `String`.
* Python character classes are modelled at ASCII level: `\s` / `str.split()` /
  `str.strip()` use the six ASCII whitespace characters, `\b` word characters
  are `[A-Za-z0-9_]`.  All transcript data the claims mention is ASCII.
* Python regex operations are embedded by their operational semantics
  (leftmost scan, non-greedy groups via minimal-length backtracking, greedy
  `\s*`/`[^>]+` with literal-forced backtracking), specialised to the three
  concrete patterns the source uses.
* Recursions that Python performs by scanning are written with an explicit
  fuel argument so that every definition is executable by kernel reduction;
  the wrappers instantiate the fuel with a provably sufficient bound.
-/

/-! ## Character classes and tag constants -/

/-- ASCII whitespace, the characters matched by Python `\s` on the
transcript alphabet (space, tab, newline, carriage return, form feed,
vertical tab). -/
def wsChar (c : Char) : Bool :=
  c == ' ' || c == '\t' || c == '\n' || c == '\r' || c == '\x0b' || c == '\x0c'

/-- ASCII word characters, as matched by Python `\w` / used by `\b`. -/
def wordChar (c : Char) : Bool :=
  (('a' ≤ c && c ≤ 'z') || ('A' ≤ c && c ≤ 'Z') || ('0' ≤ c && c ≤ '9') || c == '_')

def open1 : List Char := ['<', 'P', 'e', 'r', 's', 'o', 'n', '1', '>']
def close1 : List Char := ['<', '/', 'P', 'e', 'r', 's', 'o', 'n', '1', '>']
def open2 : List Char := ['<', 'P', 'e', 'r', 's', 'o', 'n', '2', '>']
def close2 : List Char := ['<', '/', 'P', 'e', 'r', 's', 'o', 'n', '2', '>']

/-! ## Generic scanning helpers -/

/-- Index of the first occurrence of `pat` in `l` (as Python `re` would find
the leftmost match of a literal), `none` if there is none. -/
def findSub (pat : List Char) : List Char → Option Nat
  | [] => if pat.isPrefixOf ([] : List Char) then some 0 else none
  | c :: t => if pat.isPrefixOf (c :: t) then some 0 else (findSub pat t).map (· + 1)

/-! ## `TextToSpeech.split_qa`

The source appends `<Person2>{self.ending_message}</Person2>` to the input
and then runs
`re.findall(r'<Person1>(.*?)</Person1>\s*<Person2>(.*?)</Person2>', ., re.DOTALL)`.

A match starting at a position works as follows (Python backtracking
semantics, `.` matching newlines because of `DOTALL`):
* the literal `<Person1>` must be present;
* group 1 is the shortest text followed by `</Person1>` such that the rest
  of the pattern also matches (tried over successive occurrences of
  `</Person1>`);
* `\s*<Person2>` consumes the maximal whitespace run and then requires the
  literal `<Person2>` (shorter whitespace runs cannot be followed by `<`);
* group 2 is the shortest text followed by `</Person2>`.
`findall` scans left to right, emitting matches and continuing after each
match end. -/

/-- Backtracking search for group 1: try occurrences of `</Person1>` in
`body` from position `k` on; at each, require `\s*<Person2>` and then the
nearest `</Person2>`.  Returns (group1, group2, chars of `body` consumed). -/
def qaSearch : Nat → List Char → Nat → Option (List Char × List Char × Nat)
  | 0, _, _ => none
  | fuel+1, body, k =>
    match findSub close1 (body.drop k) with
    | none => none
    | some i =>
      let p := k + i
      let after := body.drop (p + 10)
      let m := (after.takeWhile wsChar).length
      if open2.isPrefixOf (after.drop m) then
        let tail2 := after.drop (m + 9)
        match findSub close2 tail2 with
        | some j => some (body.take p, tail2.take j, p + 10 + m + 9 + j + 10)
        | none => qaSearch fuel body (p + 1)
      else qaSearch fuel body (p + 1)

/-- One attempted match of the pair pattern at the head of `s`; returns the
two groups and the total number of characters matched. -/
def qaMatch (s : List Char) : Option (List Char × List Char × Nat) :=
  if open1.isPrefixOf s then
    (qaSearch (s.length + 1) (s.drop 9) 0).map (fun r => (r.1, r.2.1, 9 + r.2.2))
  else none

/-- `re.findall` for the pair pattern: scan left to right, restart after
each match. -/
def findQAF : Nat → List Char → List (List Char × List Char)
  | 0, _ => []
  | _+1, [] => []
  | fuel+1, c :: t =>
    match qaMatch (c :: t) with
    | some (g1, g2, n) => (g1, g2) :: findQAF fuel ((c :: t).drop n)
    | none => findQAF fuel t

def findQA (s : List Char) : List (List Char × List Char) := findQAF s.length s

/-- Python `' '.join(x.split())`: split on whitespace runs, join the words
with single spaces (the trailing `.strip()` in the source is then a no-op). -/
def wordsF : Nat → List Char → List (List Char)
  | 0, _ => []
  | fuel+1, l =>
    let l1 := l.dropWhile wsChar
    match l1 with
    | [] => []
    | _ => l1.takeWhile (fun c => !(wsChar c)) ::
        wordsF fuel (l1.dropWhile (fun c => !(wsChar c)))

def normWS (l : List Char) : List Char :=
  List.intercalate [' '] (wordsF (l.length + 1) l)

/-- `TextToSpeech.split_qa`: append the ending-message block, find all
pattern matches, whitespace-normalise both groups. -/
def split_qa (input ending : String) : List (String × String) :=
  let s := input.toList ++ open2 ++ ending.toList ++ close2
  (findQA s).map (fun g => ((normWS g.1).asString, (normWS g.2).asString))

/-! ## `TextToSpeech.__convert_to_speech_google` (overlay assembly)

Durations are modelled as exact rationals; appending a pydub segment of
duration `d` to a track adds `d` to the track length.  The silence the
source computes for the non-speaking role is
`silence_duration = duration_seconds - overlap_duration - last_overlap_duration`,
which the code never clamps — but `AudioSegment.silent` builds
`int(frame_rate * duration / 1000.0)` frames of zero bytes, and a byte
string multiplied by a negative count is empty, so a negative requested
duration yields a zero-length segment (no crash).  The segment appended is
therefore `max 0 silence_duration` long. -/

/-- Running state of the two per-role tracks in the google branch:
lengths of `combined_q` and `combined_a`, plus `last_overlap_duration`. -/
structure GoogleState where
  qLen : ℚ
  aLen : ℚ
  lastOverlap : ℚ
  deriving DecidableEq, Repr

def googleInit : GoogleState := ⟨0, 0, 0⟩

/-- The silence length the source computes for one synthesized clip:
`silence_duration = duration_seconds - overlap_duration - last_overlap_duration`. -/
def silence_duration (dur overlap lastOverlap : ℚ) : ℚ := dur - overlap - lastOverlap

/-- The length of the segment `AudioSegment.silent(duration=d * 1000)`
actually produces: zero frames when the requested duration is negative. -/
def silentLen (d : ℚ) : ℚ := max 0 d

/-- Processing one clip of one turn (`question` when `isQ`): append the
clip to the speaker's track and the generated silence to the other track,
then remember this clip's overlap. -/
def googleStep (isQ : Bool) (dur overlap : ℚ) (st : GoogleState) : GoogleState :=
  let sil := silentLen (silence_duration dur overlap st.lastOverlap)
  if isQ then ⟨st.qLen + dur, st.aLen + sil, overlap⟩
  else ⟨st.qLen + sil, st.aLen + dur, overlap⟩

/-- One `(question, answer)` turn of the google loop: durations `dq`, `da`
and the per-clip random overlaps `oq`, `oa`. -/
def googleTurn (st : GoogleState) (t : ℚ × ℚ × ℚ × ℚ) : GoogleState :=
  googleStep false t.2.2.1 t.2.2.2 (googleStep true t.1 t.2.1 st)

def googleRun (ts : List (ℚ × ℚ × ℚ × ℚ)) : GoogleState :=
  ts.foldl googleTurn googleInit

/-- `combined_q += AudioSegment.silent(duration=last_overlap_duration * 1000)`
after the loop. -/
def googleFinalize (st : GoogleState) : GoogleState :=
  { st with qLen := st.qLen + silentLen st.lastOverlap }

/-- Along a run started with previous overlap `prev`, every clip is at
least as long as the two overlaps it must absorb (so every computed
`silence_duration` is nonnegative and the pydub clamp never fires), and
every overlap is nonnegative. -/
def noClampFrom : ℚ → List (ℚ × ℚ × ℚ × ℚ) → Prop
  | _, [] => True
  | prev, t :: ts =>
    0 ≤ t.2.1 ∧ 0 ≤ t.2.2.2 ∧ t.2.1 + prev ≤ t.1
      ∧ t.2.2.2 + t.2.1 ≤ t.2.2.1 ∧ noClampFrom t.2.2.2 ts

def noClampRun (ts : List (ℚ × ℚ × ℚ × ℚ)) : Prop := noClampFrom 0 ts

/-! ## `TextToSpeech.__convert_to_speech_openai` (sequential pipeline)

The loop numbers clips with a counter starting at 1 (question before answer
inside each turn), writes one temp file per clip, and only after all clips
succeed does it merge them into the output file.  The `except` block logs
and re-raises the caught exception object unchanged, so a backend failure
aborts the run before the output file is written, and the propagated error
is exactly the backend's error value. -/

structure OpenaiResult (E : Type) where
  written : List Nat   -- counters of temp clip files successfully written
  finalWritten : Bool  -- whether the merged output file was written
  err : Option E       -- the propagated exception, if any
  deriving DecidableEq, Repr

/-- The synthesis calls in counter order: `synth c` is the backend call for
clip number `c` (counter `2*i+1` is turn `i+1`'s question / role A, counter
`2*i+2` its answer / role B). -/
def openaiLoop (synth : Nat → Except E Unit) : Nat → Nat → List Nat × Option E
  | _, 0 => ([], none)
  | c, k+1 =>
    match synth c with
    | .ok _ => let r := openaiLoop synth (c + 1) k; (c :: r.1, r.2)
    | .error e => ([], some e)

def convertOpenai (synth : Nat → Except E Unit) (pairs : List (String × String)) :
    OpenaiResult E :=
  let r := openaiLoop synth 1 (2 * pairs.length)
  ⟨r.1, r.2.isNone, r.2⟩

/-! ## `TextToSpeech.__merge_audio_files` (natural sort and concatenation)

The merge step lists the temp directory, keeps every file name ending in
`.{audio_format}`, sorts them with the natural sort key
`[int(text) if text.isdigit() else text for text in re.split(r'(\d+)', f)]`
and concatenates the clips in that order.  Keys are modelled as lists of
`ℕ ⊕ₗ String` compared lexicographically (numeric chunks as numbers, text
chunks as strings); Python compares such keys componentwise and would raise
`TypeError` on a number/text comparison — that case never arises between
two keys produced by `natKey`, whose chunks alternate text, number, text, …
starting with a text chunk; the model's `inl < inr` choice there is
arbitrary and unexercised. -/

/-- One-chunk key entries: `Sum.inl` a parsed digit run, `Sum.inr` a text
chunk (kept as its character list; Python compares `str` chunks by code
point, which is the lexicographic order on the characters). -/
abbrev NatKeyEntry : Type := Nat ⊕ List Char

/-- Python `int()` of a digit run. -/
def digitsVal (l : List Char) : Nat :=
  l.foldl (fun a c => 10 * a + (c.toNat - 48)) 0

/-- `re.split(r'(\d+)', s)` with digit chunks parsed: alternating text and
number chunks, starting and ending with a (possibly empty) text chunk. -/
def natKeyF : Nat → List Char → List NatKeyEntry
  | 0, _ => []
  | fuel+1, l =>
    let pre := l.takeWhile (fun c => !(c.isDigit))
    let rest := l.dropWhile (fun c => !(c.isDigit))
    match rest with
    | [] => [Sum.inr pre]
    | _ =>
      Sum.inr pre :: Sum.inl (digitsVal (rest.takeWhile Char.isDigit)) ::
        natKeyF fuel (rest.dropWhile Char.isDigit)

/-- `natural_sort_key` from `__merge_audio_files`. -/
def natKey (s : String) : List NatKeyEntry := natKeyF (s.length + 1) s.toList

/-- Python `<` on two sequences: lexicographic by `r`, a strict prefix
preceding its extensions. -/
def listLtBy {α : Type} (r : α → α → Prop) : List α → List α → Prop
  | [], [] => False
  | [], _ :: _ => True
  | _ :: _, [] => False
  | a :: as, b :: bs => r a b ∨ (a = b ∧ listLtBy r as bs)

def decListLtBy {α : Type} (r : α → α → Prop) [DecidableRel r] [DecidableEq α] :
    ∀ a b : List α, Decidable (listLtBy r a b)
  | [], [] => isFalse (fun h => h)
  | [], _ :: _ => isTrue trivial
  | _ :: _, [] => isFalse (fun h => h)
  | _ :: as, _ :: bs =>
    @instDecidableOr _ _ _ (@instDecidableAnd _ _ _ (decListLtBy r as bs))

instance {α : Type} (r : α → α → Prop) [DecidableRel r] [DecidableEq α] :
    DecidableRel (listLtBy r) := decListLtBy r

/-- Python `<` on two `str` chunks (code-point lexicographic). -/
def chunkLt (s t : List Char) : Prop := listLtBy (· < ·) s t

instance : DecidableRel chunkLt := fun s t =>
  inferInstanceAs (Decidable (listLtBy _ s t))

/-- Python `<` on two key entries: numbers by value, text chunks by
code-point order.  Comparing a number chunk with a text chunk raises
`TypeError` in Python; that case never arises between two `natKey` values,
whose entries alternate text, number, text, … starting with a text chunk,
so the model's choice (`inl < inr`) is unexercised. -/
def nkLt : NatKeyEntry → NatKeyEntry → Prop
  | Sum.inl m, Sum.inl n => m < n
  | Sum.inl _, Sum.inr _ => True
  | Sum.inr _, Sum.inl _ => False
  | Sum.inr s, Sum.inr t => chunkLt s t

instance : DecidableRel nkLt := fun a b =>
  match a, b with
  | Sum.inl m, Sum.inl n => inferInstanceAs (Decidable (m < n))
  | Sum.inl _, Sum.inr _ => isTrue trivial
  | Sum.inr _, Sum.inl _ => isFalse (fun h => h)
  | Sum.inr s, Sum.inr t => inferInstanceAs (Decidable (chunkLt s t))

/-- Python `<` on two keys: componentwise, a strict prefix preceding. -/
def keyLt : List NatKeyEntry → List NatKeyEntry → Prop := listLtBy nkLt

instance : DecidableRel keyLt := fun a b =>
  inferInstanceAs (Decidable (listLtBy _ a b))

/-- Comparison of two file names by their natural sort keys, as Python
`sorted(..., key=natural_sort_key)` orders them. -/
def natKeyLe (a b : String) : Prop :=
  keyLt (natKey a) (natKey b) ∨ natKey a = natKey b

instance : DecidableRel natKeyLe := fun _ _ => inferInstanceAs (Decidable (_ ∨ _))

/-- The sequence of clips `__merge_audio_files` concatenates: every listed
file whose name ends in `.{audio_format}` (Python `str.endswith`, modelled
as a suffix test on the character list), in natural-sort order (Python
`sorted` is stable; so is insertion sort with a `≤` relation). -/
def mergeOrder (fmt : String) (listing : List String) : List String :=
  List.insertionSort natKeyLe
    (listing.filter (fun f => ("." ++ fmt).toList.isSuffixOf f.toList))

/-- Total duration of the merged track: concatenation appends clips end to
end, so the duration is the sum of the selected clips' durations. -/
def mergedDuration (fmt : String) (listing : List String) (dur : String → ℚ) : ℚ :=
  ((mergeOrder fmt listing).map dur).sum

/-! Decimal rendering of the clip counter, as Python's `f"{counter}"`. -/

def decDigitsF : Nat → Nat → List Char
  | 0, _ => []
  | _+1, 0 => []
  | fuel+1, n => decDigitsF fuel (n / 10) ++ [Char.ofNat (48 + n % 10)]

/-- `str(n)` for a natural number. -/
def decRepr (n : Nat) : String :=
  if n = 0 then "0" else (decDigitsF (n + 1) n).asString

/-- The temp file name the openai/elevenlabs loops write for clip `i`:
`f"{self.temp_audio_dir}{counter}.{self.audio_format}"` (directory part
dropped: the merge step works with the bare names it lists). -/
def clipFileName (fmt : String) (i : Nat) : String := decRepr i ++ "." ++ fmt

/-- The temp files a run over `n` clips produces, in write order
(counters `1, 2, …, n`). -/
def clipFiles (fmt : String) (n : Nat) : List String :=
  (List.range' 1 n).map (clipFileName fmt)

/-- The openai loop's clips in execution order, starting from counter `c`:
for each `(question, answer)` turn, the question clip then the answer clip,
with `counter += 1` before each write. -/
def openaiClipsFrom : Nat → List (String × String) → List (Nat × String)
  | _, [] => []
  | c, (q, a) :: rest => (c + 1, q) :: (c + 2, a) :: openaiClipsFrom (c + 2) rest

def openaiClips (pairs : List (String × String)) : List (Nat × String) :=
  openaiClipsFrom 0 pairs

/-- The run's temp files in turn order, role A's clip before role B's
inside each turn. -/
def turnOrderFiles (fmt : String) (pairs : List (String × String)) : List String :=
  (openaiClips pairs).map (fun p => clipFileName fmt p.1)

/-! ## `TextToSpeech.clean_tss_markup`

Three regex passes and a trailing `.strip()`:
1. `re.sub(r'</?(?!(?:speak|break|lang|p|phoneme|s|say-as|sub|Person1|Person2)\b)[^>]+>', '', text)`.
   At a `<`, the optional `/` is consumed greedily and backtracked on
   failure.  For a closing tag of a supported name the lookahead fails with
   the `/` consumed, the engine retries without consuming it, the lookahead
   then passes (no tag name starts with `/`) and `[^>]+>` matches — so pass
   1 also deletes closing tags of supported names.  `[^>]+` can only match
   the maximal run of non-`>` characters (backtracking it leaves a non-`>`
   character where the literal `>` is required).
2. `re.sub(r'\n\s*\n', '\n', .)`: at a `\n`, greedy `\s*` backtracks to the
   last `\n` inside the maximal whitespace run that follows.
3. per preserved tag, `re.sub(f'<TAG>(.*?)(?=<(?:Person1|Person2)>|$)',
   f'<TAG>\\1</TAG>', ., flags=re.DOTALL)`: the non-greedy group stops at
   the first position where a preserved opening tag follows or where Python
   `$` matches — end of string, or just before a terminal newline. -/

def supportedTags : List (List Char) :=
  ["speak".toList, "break".toList, "lang".toList, "p".toList, "phoneme".toList,
   "s".toList, "say-as".toList, "sub".toList, "Person1".toList, "Person2".toList]

/-- The lookahead `(?:tag1|...|tagN)\b` at text `u` (every tag name ends in
a word character, so `\b` holds iff the next character is absent or not a
word character). -/
def tagLookahead (u : List Char) : Bool :=
  supportedTags.any (fun tag =>
    tag.isPrefixOf u &&
      (match (u.drop tag.length).head? with
       | none => true
       | some c => !(wordChar c)))

/-- Length of the maximal `[^>]` run at the head of `u`. -/
def runNonGt (u : List Char) : Nat := (u.takeWhile (fun c => c != '>')).length

/-- `(?!(..)\b)[^>]+>` at `u`: the negative lookahead must pass, the run of
non-`>` characters must be nonempty, and the literal `>` must follow it. -/
def tailTagMatch (u : List Char) : Option Nat :=
  if !(tagLookahead u) && decide (1 ≤ runNonGt u) &&
      !((u.drop (runNonGt u)).isEmpty) then
    some (runNonGt u + 1)
  else none

/-- Length of a pass-1 match starting at the head of `s`, if any. -/
def tagMatchLen (s : List Char) : Option Nat :=
  match s with
  | '<' :: '/' :: u =>
    match tailTagMatch u with
    | some n => some (2 + n)                -- with the '/' consumed
    | none => (tailTagMatch ('/' :: u)).map (1 + ·)  -- backtrack: '/' in [^>]+
  | '<' :: t => (tailTagMatch t).map (1 + ·)
  | _ => none

/-- Pass 1: delete every match, scanning left to right and continuing after
each deletion (deleted regions are not re-scanned, matching `re.sub`). -/
def removeTagsF : Nat → List Char → List Char
  | 0, l => l
  | _+1, [] => []
  | fuel+1, c :: t =>
    match tagMatchLen (c :: t) with
    | some n => removeTagsF fuel ((c :: t).drop n)
    | none => c :: removeTagsF fuel t

/-- Index of the last `'\n'` in a list, if any. -/
def lastNlIdx : List Char → Option Nat
  | [] => none
  | c :: t =>
    match lastNlIdx t with
    | some i => some (i + 1)
    | none => if c = '\n' then some 0 else none

/-- Pass 2: `\n\s*\n → \n`.  At a `\n`, the greedy `\s*` backtracks from
the maximal whitespace run to the last `\n` inside it (positions past the
run are not whitespace, hence not `\n`). -/
def collapseNlF : Nat → List Char → List Char
  | 0, l => l
  | _+1, [] => []
  | fuel+1, c :: t =>
    if c = '\n' then
      match lastNlIdx (t.takeWhile wsChar) with
      | some w => '\n' :: collapseNlF fuel (t.drop (w + 1))
      | none => '\n' :: collapseNlF fuel t
    else c :: collapseNlF fuel t

/-- Pass-3 stop positions for the non-greedy group: a preserved opening tag
follows, or `$` matches (end, or a lone terminal newline remains). -/
def stopCond (s : List Char) : Bool :=
  s.isEmpty || s == ['\n'] || open1.isPrefixOf s || open2.isPrefixOf s

/-- The group `(.*?)` up to the first stop position, and the rest. -/
def takeContent : List Char → List Char × List Char
  | [] => ([], [])
  | c :: t =>
    if stopCond (c :: t) then ([], c :: t)
    else
      let r := takeContent t
      (c :: r.1, r.2)

/-- Pass 3 for one preserved tag: rewrite every `<TAG>content` (content up
to the next stop) into `<TAG>content</TAG>`, continuing at the stop. -/
def addClosersF (opn cls : List Char) : Nat → List Char → List Char
  | 0, l => l
  | _+1, [] => []
  | fuel+1, c :: t =>
    if opn.isPrefixOf (c :: t) then
      let r := takeContent ((c :: t).drop opn.length)
      opn ++ r.1 ++ cls ++ addClosersF opn cls fuel r.2
    else c :: addClosersF opn cls fuel t

/-- Python `str.strip()` (ASCII whitespace). -/
def stripWs (l : List Char) : List Char :=
  ((l.dropWhile wsChar).reverse.dropWhile wsChar).reverse

/-- `clean_tss_markup` with the default `additional_tags=["Person1","Person2"]`. -/
def cleanTssList (l : List Char) : List Char :=
  let s1 := removeTagsF (l.length + 1) l
  let s2 := collapseNlF (s1.length + 1) s1
  let s3 := addClosersF open1 close1 (s2.length + 1) s2
  let s4 := addClosersF open2 close2 (s3.length + 1) s3
  stripWs s4

def clean_tss_markup (s : String) : String := (cleanTssList s.toList).asString

/-! ## Shapes of well-formed transcripts (used to state the structural
claims about `split_qa` and `clean_tss_markup`) -/

/-- `c` never occurs in `l` (e.g. tag-free dialogue text has no `'<'`). -/
def charFree (c : Char) (l : List Char) : Prop := ∀ x ∈ l, x ≠ c

instance (c : Char) (l : List Char) : Decidable (charFree c l) :=
  inferInstanceAs (Decidable (∀ x ∈ l, x ≠ c))

/-- One complete `(roleA, roleB)` tag-pair group. -/
def renderPair (q a : List Char) : List Char :=
  open1 ++ q ++ close1 ++ open2 ++ a ++ close2

/-- A transcript that is a concatenation of complete tag-pair groups. -/
def renderPairs (ps : List (List Char × List Char)) : List Char :=
  (ps.map (fun p => renderPair p.1 p.2)).flatten

/-- A trailing roleA segment with no matching roleB segment after it. -/
def renderDangling (q : List Char) : List Char := open1 ++ q ++ close1

/-- One `<PersonK>text</PersonK>` block of a sanitized dialogue
(`true` for Person1, `false` for Person2). -/
def dialogueBlock (isP1 : Bool) (t : List Char) : List Char :=
  if isP1 then open1 ++ t ++ close1 else open2 ++ t ++ close2

/-- A canonical sanitized dialogue: a concatenation of closed
`<PersonK>text</PersonK>` blocks. -/
def dialogue (bs : List (Bool × List Char)) : List Char :=
  (bs.map (fun b => dialogueBlock b.1 b.2)).flatten

/-- Dialogue text admissible inside a block: no `'<'` (so it contains no
tag) and no newline (so passes 2 and 3 leave it alone). -/
def blockText (t : List Char) : Prop := charFree '<' t ∧ charFree '\n' t

instance (t : List Char) : Decidable (blockText t) := inferInstanceAs (Decidable (_ ∧ _))

/-- The state of a canonical dialogue after pass 1 of the sanitizer: the
closing tags (which pass 1 deletes, since the lookahead backtracks over the
optional `/`) are gone and only `<PersonK>text` segments remain. -/
def openSeg (b : Bool × List Char) : List Char :=
  (if b.1 then open1 else open2) ++ b.2

def openBlocks (bs : List (Bool × List Char)) : List Char :=
  (bs.map openSeg).flatten

/-- The state after pass 3 (closers re-added for Person1 only). -/
def halfSeg (b : Bool × List Char) : List Char :=
  if b.1 then open1 ++ b.2 ++ close1 else open2 ++ b.2

def halfBlocks (bs : List (Bool × List Char)) : List Char :=
  (bs.map halfSeg).flatten

/-- Fuel consumed by pass 1 on a canonical dialogue: one step for the `<`
of the opening tag, one per copied character, one for the deleted closer. -/
def removeFuel (bs : List (Bool × List Char)) : Nat :=
  (bs.map (fun b => 10 + b.2.length)).sum

/-- Fuel consumed by the Person1 closer pass on `openBlocks`: one step per
matched Person1 segment, one per copied character of a Person2 segment. -/
def pass3Fuel (bs : List (Bool × List Char)) : Nat :=
  (bs.map (fun b => if b.1 then 1 else 9 + b.2.length)).sum

/-- Fuel consumed by the Person2 closer pass on `halfBlocks`. -/
def pass4Fuel (bs : List (Bool × List Char)) : Nat :=
  (bs.map (fun b => if b.1 then 19 + b.2.length else 1)).sum

/-- A preserved-tag opening (of either role) occurs at position `k`. -/
def isOpenAt (o : List Char) (k : Nat) : Prop :=
  open1 <+: o.drop k ∨ open2 <+: o.drop k

/-- The structural-balance property of the spec: every occurrence of the
opening tag `opn` is followed by an occurrence of the closing tag `cls`
with no preserved-tag opening strictly between them. -/
def opensClosed (opn cls o : List Char) : Prop :=
  ∀ i, opn <+: o.drop i →
    ∃ j, i < j ∧ cls <+: o.drop j ∧ ∀ k, i < k → k < j → ¬ isOpenAt o k

/-- `o` is `t` with copies of `</Person2>` inserted, each insertion at a
position where the remaining input satisfies the pass-3 stop condition
(exactly how the Person2 closer pass rewrites its input). -/
inductive InsAt : List Char → List Char → Prop
  | nil : InsAt [] []
  | cons (c : Char) {t o : List Char} : InsAt t o → InsAt (c :: t) (c :: o)
  | ins {t o : List Char} : stopCond t = true → InsAt t o → InsAt t (close2 ++ o)

deriving instance DecidableEq for Except

/-! # Supporting lemmas -/

/-! ## Overlay assembly -/

/-- Invariant of the google loop: from any state whose track difference
equals its `lastOverlap`, that relation is preserved by every turn as long
as no computed silence is negative (the pydub clamp never fires), and the
final `lastOverlap` stays nonnegative. -/
theorem googleFold_diff (ts : List (ℚ × ℚ × ℚ × ℚ)) :
    ∀ st : GoogleState, st.aLen - st.qLen = st.lastOverlap →
      noClampFrom st.lastOverlap ts →
      (ts.foldl googleTurn st).aLen - (ts.foldl googleTurn st).qLen =
        (ts.foldl googleTurn st).lastOverlap
      ∧ (0 ≤ st.lastOverlap → 0 ≤ (ts.foldl googleTurn st).lastOverlap) := by
  induction ts with
  | nil => intro st h _; exact ⟨h, fun h2 => h2⟩
  | cons t ts ih =>
    intro st h hnc
    obtain ⟨h1, h2, h3, h4, h5⟩ := hnc
    have hsil1 : silentLen (silence_duration t.1 t.2.1 st.lastOverlap)
        = silence_duration t.1 t.2.1 st.lastOverlap := by
      unfold silentLen silence_duration
      exact max_eq_right (by linarith)
    have hsil2 : silentLen (silence_duration t.2.2.1 t.2.2.2 t.2.1)
        = silence_duration t.2.2.1 t.2.2.2 t.2.1 := by
      unfold silentLen silence_duration
      exact max_eq_right (by linarith)
    have hturn : (googleTurn st t).aLen - (googleTurn st t).qLen = t.2.2.2
        ∧ (googleTurn st t).lastOverlap = t.2.2.2 := by
      simp only [googleTurn, googleStep, if_pos, if_neg]
      simp only [Bool.false_eq_true, if_false, if_true]
      rw [hsil1, hsil2]
      unfold silence_duration
      exact ⟨by linarith, by trivial⟩
    simp only [List.foldl_cons]
    have hres := ih (googleTurn st t) (by rw [hturn.2]; exact hturn.1)
      (by rw [hturn.2]; exact h5)
    refine ⟨hres.1, fun _ => hres.2 ?_⟩
    rw [hturn.2]
    exact h2

/-! ## Natural sort order -/

theorem listLtBy_trans {α : Type} {r : α → α → Prop}
    (hr : ∀ a b c, r a b → r b c → r a c) :
    ∀ a b c : List α, listLtBy r a b → listLtBy r b c → listLtBy r a c := by
  intro a
  induction a with
  | nil =>
    intro b c hab hbc
    cases b <;> cases c <;> simp only [listLtBy] at * <;> trivial
  | cons x as ih =>
    intro b c hab hbc
    cases b with
    | nil => simp [listLtBy] at hab
    | cons y bs =>
      cases c with
      | nil => simp [listLtBy] at hbc
      | cons z cs =>
        simp only [listLtBy] at *
        rcases hab with h1 | ⟨rfl, h1⟩
        · rcases hbc with h2 | ⟨rfl, h2⟩
          · exact Or.inl (hr _ _ _ h1 h2)
          · exact Or.inl h1
        · rcases hbc with h2 | ⟨rfl, h2⟩
          · exact Or.inl h2
          · exact Or.inr ⟨rfl, ih _ _ h1 h2⟩

theorem listLtBy_trichot {α : Type} {r : α → α → Prop}
    (hr : ∀ a b : α, r a b ∨ a = b ∨ r b a) :
    ∀ a b : List α, listLtBy r a b ∨ a = b ∨ listLtBy r b a := by
  intro a
  induction a with
  | nil =>
    intro b
    cases b <;> simp [listLtBy]
  | cons x as ih =>
    intro b
    cases b with
    | nil => simp [listLtBy]
    | cons y bs =>
      simp only [listLtBy, List.cons.injEq]
      rcases hr x y with h | rfl | h
      · exact Or.inl (Or.inl h)
      · rcases ih bs with h | rfl | h
        · exact Or.inl (Or.inr ⟨rfl, h⟩)
        · exact Or.inr (Or.inl ⟨rfl, rfl⟩)
        · exact Or.inr (Or.inr (Or.inr ⟨rfl, h⟩))
      · exact Or.inr (Or.inr (Or.inl h))

theorem chunkLt_trans : ∀ a b c, chunkLt a b → chunkLt b c → chunkLt a c :=
  listLtBy_trans (fun _ _ _ h1 h2 => lt_trans h1 h2)

theorem chunkLt_trichot : ∀ a b, chunkLt a b ∨ a = b ∨ chunkLt b a :=
  listLtBy_trichot (fun a b => lt_trichotomy a b)

theorem nkLt_trans : ∀ a b c : NatKeyEntry, nkLt a b → nkLt b c → nkLt a c := by
  intro a b c hab hbc
  cases a <;> cases b <;> cases c <;> simp only [nkLt] at * <;>
    first
      | trivial
      | exact lt_trans hab hbc
      | exact chunkLt_trans _ _ _ hab hbc

theorem nkLt_trichot : ∀ a b : NatKeyEntry, nkLt a b ∨ a = b ∨ nkLt b a := by
  intro a b
  cases a <;> cases b <;> simp only [nkLt, Sum.inl.injEq, Sum.inr.injEq] <;>
    first
      | exact Or.inl trivial
      | exact Or.inr (Or.inr trivial)
      | exact lt_trichotomy _ _
      | exact chunkLt_trichot _ _

theorem keyLt_trans : ∀ a b c : List NatKeyEntry, keyLt a b → keyLt b c → keyLt a c :=
  listLtBy_trans nkLt_trans

theorem keyLt_trichot : ∀ a b : List NatKeyEntry, keyLt a b ∨ a = b ∨ keyLt b a :=
  listLtBy_trichot nkLt_trichot

instance : IsTotal String natKeyLe :=
  ⟨fun a b => by
    rcases keyLt_trichot (natKey a) (natKey b) with h | h | h
    · exact Or.inl (Or.inl h)
    · exact Or.inl (Or.inr h)
    · exact Or.inr (Or.inl h)⟩

instance : IsTrans String natKeyLe :=
  ⟨fun a b c hab hbc => by
    rcases hab with h1 | h1 <;> rcases hbc with h2 | h2
    · exact Or.inl (keyLt_trans _ _ _ h1 h2)
    · exact Or.inl (h2 ▸ h1)
    · exact Or.inl (h1 ▸ h2)
    · exact Or.inr (h1.trans h2)⟩

/-! ## Decimal rendering and parsing -/

theorem digitsVal_append_digit (xs : List Char) (c : Char) :
    digitsVal (xs ++ [c]) = 10 * digitsVal xs + (c.toNat - 48) := by
  simp [digitsVal, List.foldl_append]

theorem toNat_digit (r : Nat) (h : r < 10) : (Char.ofNat (48 + r)).toNat = 48 + r := by
  interval_cases r <;> decide

theorem isDigit_digit (r : Nat) (h : r < 10) : (Char.ofNat (48 + r)).isDigit = true := by
  interval_cases r <;> decide

theorem digitsVal_decDigitsF : ∀ (f n : Nat), n < f → digitsVal (decDigitsF f n) = n := by
  intro f
  induction f with
  | zero => omega
  | succ f ih =>
    intro n hn
    match n with
    | 0 => simp [decDigitsF, digitsVal]
    | m + 1 =>
      have hd : decDigitsF (f + 1) (m + 1) =
          decDigitsF f ((m + 1) / 10) ++ [Char.ofNat (48 + (m + 1) % 10)] := rfl
      rw [hd, digitsVal_append_digit, ih _ (by omega : (m + 1) / 10 < f),
        toNat_digit _ (Nat.mod_lt _ (by norm_num))]
      omega

theorem decDigitsF_digits : ∀ (f n : Nat), ∀ c ∈ decDigitsF f n, c.isDigit = true := by
  intro f
  induction f with
  | zero => intro n c hc; simp [decDigitsF] at hc
  | succ f ih =>
    intro n c hc
    match n with
    | 0 => simp [decDigitsF] at hc
    | m + 1 =>
      have hd : decDigitsF (f + 1) (m + 1) =
          decDigitsF f ((m + 1) / 10) ++ [Char.ofNat (48 + (m + 1) % 10)] := rfl
      rw [hd, List.mem_append] at hc
      rcases hc with hc | hc
      · exact ih _ c hc
      · simp only [List.mem_singleton] at hc
        exact hc ▸ isDigit_digit _ (Nat.mod_lt _ (by norm_num))

theorem decDigitsF_ne_nil (f n : Nat) (h0 : 0 < n) (hf : n < f) :
    decDigitsF f n ≠ [] := by
  match f, n with
  | f + 1, m + 1 =>
    have hd : decDigitsF (f + 1) (m + 1) =
        decDigitsF f ((m + 1) / 10) ++ [Char.ofNat (48 + (m + 1) % 10)] := rfl
    rw [hd]
    simp

/-! ## Splitting a name into its natural sort key -/

theorem takeWhile_append_all {α : Type} {p : α → Bool} :
    ∀ (a b : List α), (∀ c ∈ a, p c = true) → (a ++ b).takeWhile p = a ++ b.takeWhile p := by
  intro a
  induction a with
  | nil => intro b _; simp
  | cons x xs ih =>
    intro b h
    have hx : p x = true := h x (by simp)
    simp only [List.cons_append, List.takeWhile_cons, hx, if_true]
    rw [ih b (fun c hc => h c (by simp [hc]))]

theorem dropWhile_append_all {α : Type} {p : α → Bool} :
    ∀ (a b : List α), (∀ c ∈ a, p c = true) → (a ++ b).dropWhile p = b.dropWhile p := by
  intro a
  induction a with
  | nil => intro b _; simp
  | cons x xs ih =>
    intro b h
    have hx : p x = true := h x (by simp)
    simp only [List.cons_append, List.dropWhile_cons, hx, if_true]
    exact ih b (fun c hc => h c (by simp [hc]))

theorem dropWhile_head_false {α : Type} (p : α → Bool) :
    ∀ (l : List α) c t, l.dropWhile p = c :: t → p c = false := by
  intro l
  induction l with
  | nil => intro c t h; simp at h
  | cons a l ih =>
    intro c t h
    by_cases hp : p a = true
    · rw [List.dropWhile_cons, if_pos hp] at h
      exact ih c t h
    · rw [List.dropWhile_cons, if_neg hp] at h
      cases h
      exact Bool.eq_false_iff.2 hp

theorem natKeyF_fuel : ∀ (n : Nat) (l : List Char) (f g : Nat),
    l.length ≤ n → l.length < f → l.length < g → natKeyF f l = natKeyF g l := by
  intro n
  induction n with
  | zero =>
    intro l f g hl hf hg
    match l, hl with
    | [], _ =>
      match f, g, hf, hg with
      | f + 1, g + 1, _, _ => rfl
  | succ n ih =>
    intro l f g hl hf hg
    match f, g, hf, hg with
    | f + 1, g + 1, _, _ =>
      rcases hr : l.dropWhile (fun c => !(c.isDigit)) with _ | ⟨c, t⟩
      · simp only [natKeyF, hr]
      · have hsuf : (c :: t).length ≤ l.length := by
          have h := (List.dropWhile_suffix (l := l) (fun c => !(c.isDigit))).length_le
          rw [hr] at h; exact h
        have hc : c.isDigit = true := by
          have := dropWhile_head_false (fun c => !(c.isDigit)) l c t hr
          simpa using this
        have hres : (c :: t).dropWhile Char.isDigit = t.dropWhile Char.isDigit := by
          rw [List.dropWhile_cons, if_pos hc]
        have hlen : (t.dropWhile Char.isDigit).length ≤ t.length :=
          (List.dropWhile_suffix Char.isDigit).length_le
        have hlt : (t.dropWhile Char.isDigit).length < l.length := by
          simp only [List.length_cons] at hsuf; omega
        simp only [natKeyF, hr, hres]
        rw [ih (t.dropWhile Char.isDigit) f g (by omega) (by omega) (by omega)]

/-- The key suffix contributed by `".{audio_format}"`. -/
def natKeyTail (fmt : String) : List NatKeyEntry :=
  natKeyF (fmt.toList.length + 2) ('.' :: fmt.toList)

theorem natKeyF_digits_dot (D R : List Char) (F : Nat)
    (hD : D ≠ []) (hdig : ∀ c ∈ D, c.isDigit = true) :
    natKeyF (F + 1) (D ++ '.' :: R) =
      Sum.inr [] :: Sum.inl (digitsVal D) :: natKeyF F ('.' :: R) := by
  rcases D with _ | ⟨c0, D'⟩
  · exact absurd rfl hD
  have hc0 : c0.isDigit = true := hdig c0 (by simp)
  have h1 : ((c0 :: D') ++ '.' :: R).takeWhile (fun c => !(c.isDigit)) = [] := by
    rw [List.cons_append, List.takeWhile_cons, if_neg (by simp [hc0])]
  have h2 : ((c0 :: D') ++ '.' :: R).dropWhile (fun c => !(c.isDigit)) =
      (c0 :: D') ++ '.' :: R := by
    rw [List.cons_append, List.dropWhile_cons, if_neg (by simp [hc0]), ← List.cons_append]
  have h3 : ((c0 :: D') ++ '.' :: R).takeWhile Char.isDigit = c0 :: D' := by
    rw [takeWhile_append_all _ _ hdig, List.takeWhile_cons, if_neg (by decide),
      List.append_nil]
  have h4 : ((c0 :: D') ++ '.' :: R).dropWhile Char.isDigit = '.' :: R := by
    rw [dropWhile_append_all _ _ hdig, List.dropWhile_cons, if_neg (by decide)]
  have h2' : List.dropWhile (fun c => !(c.isDigit)) ((c0 :: D') ++ '.' :: R) =
      c0 :: (D' ++ '.' :: R) := by rw [h2, List.cons_append]
  simp only [natKeyF, h2', ← List.cons_append, h1, h3, h4]
  rfl

theorem natKey_clipFileName (fmt : String) (i : Nat) (hi : 1 ≤ i) :
    natKey (clipFileName fmt i) = Sum.inr [] :: Sum.inl i :: natKeyTail fmt := by
  set D := decDigitsF (i + 1) i with hDdef
  have hDne : D ≠ [] := decDigitsF_ne_nil _ _ (by omega) (by omega)
  have hDdig : ∀ c ∈ D, c.isDigit = true := decDigitsF_digits _ _
  have hlist : (clipFileName fmt i).toList = D ++ '.' :: fmt.toList := by
    show (decRepr i ++ "." ++ fmt).data = _
    rw [String.data_append, String.data_append]
    unfold decRepr
    rw [if_neg (by omega)]
    show D ++ ['.'] ++ fmt.toList = D ++ '.' :: fmt.toList
    rw [List.append_assoc]
    rfl
  have hfuel : (clipFileName fmt i).length = (D ++ '.' :: fmt.toList).length := by
    show (clipFileName fmt i).toList.length = _
    rw [hlist]
  show natKeyF ((clipFileName fmt i).length + 1) (clipFileName fmt i).toList = _
  rw [hlist, hfuel, List.length_append]
  have hlen : (D ++ '.' :: fmt.toList).length = D.length + ('.' :: fmt.toList).length :=
    List.length_append _ _
  rw [show D.length + ('.' :: fmt.toList).length + 1
      = (D.length + ('.' :: fmt.toList).length) + 1 from rfl]
  rw [natKeyF_digits_dot D fmt.toList _ hDne hDdig]
  rw [digitsVal_decDigitsF _ _ (by omega)]
  have htail : natKeyF (D.length + ('.' :: fmt.toList).length) ('.' :: fmt.toList)
      = natKeyTail fmt := by
    apply natKeyF_fuel ('.' :: fmt.toList).length _ _ _ le_rfl
    · rcases D with _ | ⟨c0, D'⟩
      · exact absurd rfl hDne
      · simp
    · simp [natKeyTail]
  rw [htail]

theorem natKeyLe_clipFileName (fmt : String) {i j : Nat} (hi : 1 ≤ i) (hij : i ≤ j) :
    natKeyLe (clipFileName fmt i) (clipFileName fmt j) := by
  unfold natKeyLe
  rw [natKey_clipFileName fmt i hi, natKey_clipFileName fmt j (by omega)]
  rcases Nat.lt_or_ge i j with h | h
  · exact Or.inl (Or.inr ⟨rfl, Or.inl h⟩)
  · have : i = j := by omega
    subst this
    exact Or.inr rfl

theorem sorted_clipFiles (fmt : String) (n : Nat) :
    List.Sorted natKeyLe (clipFiles fmt n) := by
  unfold clipFiles List.Sorted
  rw [List.pairwise_map]
  refine List.Pairwise.imp_of_mem ?_ (List.pairwise_lt_range' 1 n)
  intro a b ha _ hab
  have h1 : 1 ≤ a := by
    have := List.mem_range'_1.1 ha
    omega
  exact natKeyLe_clipFileName fmt h1 (le_of_lt hab)

theorem clipFileName_hasExt (fmt : String) (i : Nat) :
    ("." ++ fmt).toList.isSuffixOf (clipFileName fmt i).toList = true := by
  rw [List.isSuffixOf_iff_suffix]
  show ("." ++ fmt).data <:+ (decRepr i ++ "." ++ fmt).data
  rw [String.data_append, String.data_append, String.data_append]
  exact ⟨(decRepr i).data, by rw [List.append_assoc]⟩

theorem filter_clipFiles (fmt : String) (n : Nat) :
    (clipFiles fmt n).filter (fun f => ("." ++ fmt).toList.isSuffixOf f.toList) =
      clipFiles fmt n := by
  refine List.filter_eq_self.2 (fun f hf => ?_)
  unfold clipFiles at hf
  rw [List.mem_map] at hf
  obtain ⟨i, _, rfl⟩ := hf
  exact clipFileName_hasExt fmt i

theorem openaiClipsFrom_fst :
    ∀ (pairs : List (String × String)) (c : Nat),
      (openaiClipsFrom c pairs).map Prod.fst = List.range' (c + 1) (2 * pairs.length) := by
  intro pairs
  induction pairs with
  | nil => intro c; simp [openaiClipsFrom]
  | cons p rest ih =>
    intro c
    rcases p with ⟨q, a⟩
    show (c + 1) :: (c + 2) :: (openaiClipsFrom (c + 2) rest).map Prod.fst = _
    rw [ih (c + 2)]
    have h1 : 2 * (⟨q, a⟩ :: rest : List (String × String)).length = 2 * rest.length + 1 + 1 := by
      simp [List.length_cons]; omega
    rw [h1, List.range'_succ, List.range'_succ, show c + 1 + 1 = c + 2 by omega,
      show c + 2 + 1 = c + 3 by omega]

theorem turnOrderFiles_eq_clipFiles (fmt : String) (pairs : List (String × String)) :
    turnOrderFiles fmt pairs = clipFiles fmt (2 * pairs.length) := by
  unfold turnOrderFiles clipFiles openaiClips
  rw [show (fun p : Nat × String => clipFileName fmt p.1) = clipFileName fmt ∘ Prod.fst from rfl,
    ← List.map_map, openaiClipsFrom_fst]

/-! ## Occurrences of a literal and `findSub` -/

theorem tag_constants_eq :
    open1 = "<Person1>".toList ∧ close1 = "</Person1>".toList ∧
    open2 = "<Person2>".toList ∧ close2 = "</Person2>".toList := by decide

theorem open1_length : open1.length = 9 := rfl
theorem close1_length : close1.length = 10 := rfl
theorem open2_length : open2.length = 9 := rfl
theorem close2_length : close2.length = 10 := rfl

theorem head_eq_of_prefix {l₁ l₂ : List Char} (h : l₁ <+: l₂) (hne : l₁ ≠ []) :
    l₂.head? = l₁.head? := by
  obtain ⟨r, rfl⟩ := h
  cases l₁ with
  | nil => exact absurd rfl hne
  | cons a t => rfl

theorem not_prefix_of_length {l₁ l₂ : List Char} (h : l₂.length < l₁.length) :
    ¬ l₁ <+: l₂ :=
  fun hp => absurd hp.length_le (by omega)

/-- A pattern beginning with `'<'` cannot occur at a position inside a
`'<'`-free region. -/
theorem not_prefix_in_ltFree {pat : List Char} (hpat : pat.head? = some '<')
    (q X : List Char) (hq : charFree '<' q) {j : Nat} (hj : j < q.length) :
    ¬ pat <+: (q ++ X).drop j := by
  intro h
  have hne : pat ≠ [] := by intro e; rw [e] at hpat; cases hpat
  have hhead := head_eq_of_prefix h hne
  rw [hpat] at hhead
  rw [List.drop_append_of_le_length (le_of_lt hj), List.drop_eq_getElem_cons hj,
    List.cons_append] at hhead
  have : q[j] = '<' := by simpa using hhead
  exact hq q[j] (List.getElem_mem hj) this

theorem findSub_none_iff (pat : List Char) :
    ∀ l, findSub pat l = none ↔ ∀ i, ¬ pat <+: l.drop i := by
  intro l
  induction l with
  | nil =>
    constructor
    · intro h i hp
      simp only [findSub] at h
      rw [List.drop_nil] at hp
      rw [if_pos (List.isPrefixOf_iff_prefix.2 hp)] at h
      cases h
    · intro h
      simp only [findSub]
      rw [if_neg]
      intro hp
      exact h 0 (by simpa using List.isPrefixOf_iff_prefix.1 hp)
  | cons c t ih =>
    constructor
    · intro h i hp
      simp only [findSub] at h
      by_cases hp0 : pat.isPrefixOf (c :: t) = true
      · rw [if_pos hp0] at h; cases h
      · rw [if_neg hp0, Option.map_eq_none'] at h
        match i with
        | 0 => exact hp0 (List.isPrefixOf_iff_prefix.2 (by simpa using hp))
        | i + 1 => exact (ih.1 h) i hp
    · intro h
      simp only [findSub]
      have hni : ¬ pat.isPrefixOf (c :: t) = true :=
        fun hp => h 0 (by simpa using List.isPrefixOf_iff_prefix.1 hp)
      rw [if_neg hni, Option.map_eq_none']
      exact ih.2 (fun i => h (i + 1))

theorem findSub_spec (pat : List Char) :
    ∀ (l : List Char) (i : Nat), pat <+: l.drop i →
      (∀ j, j < i → ¬ pat <+: l.drop j) → findSub pat l = some i := by
  intro l
  induction l with
  | nil =>
    intro i hp hmin
    match i with
    | 0 =>
      simp only [findSub]
      rw [if_pos (List.isPrefixOf_iff_prefix.2 (by simpa using hp))]
    | i + 1 =>
      exact absurd (by simpa using hp) (by simpa using hmin 0 (by omega))
  | cons c t ih =>
    intro i hp hmin
    match i with
    | 0 =>
      simp only [findSub]
      rw [if_pos (List.isPrefixOf_iff_prefix.2 (by simpa using hp))]
    | i + 1 =>
      simp only [findSub]
      rw [if_neg (fun hb => hmin 0 (by omega) (by simpa using List.isPrefixOf_iff_prefix.1 hb))]
      rw [ih i (by simpa using hp) (fun j hj => by simpa using hmin (j + 1) (by omega))]
      rfl

theorem findSub_some_prefix (pat : List Char) :
    ∀ (l : List Char) (i : Nat), findSub pat l = some i → pat <+: l.drop i := by
  intro l
  induction l with
  | nil =>
    intro i h
    simp only [findSub] at h
    by_cases hp : pat.isPrefixOf ([] : List Char) = true
    · rw [if_pos hp] at h
      cases h
      simpa using List.isPrefixOf_iff_prefix.1 hp
    · rw [if_neg hp] at h; cases h
  | cons c t ih =>
    intro i h
    simp only [findSub] at h
    by_cases hp : pat.isPrefixOf (c :: t) = true
    · rw [if_pos hp] at h
      cases h
      simpa using List.isPrefixOf_iff_prefix.1 hp
    · rw [if_neg hp] at h
      rcases hf : findSub pat t with _ | v
      · rw [hf] at h; cases h
      · rw [hf] at h
        simp only [Option.map_some'] at h
        cases h
        exact ih v hf

/-! ## Decomposing an occurrence over an append -/

theorem prefix_drop_of_prefix {l₁ l₂ : List Char} (h : l₁ <+: l₂) (n : Nat) :
    l₁.drop n <+: l₂.drop n := by
  obtain ⟨r, rfl⟩ := h
  rcases le_or_lt n l₁.length with hn | hn
  · rw [List.drop_append_of_le_length hn]
    exact ⟨r, rfl⟩
  · rw [List.drop_eq_nil_of_le (le_of_lt hn)]
    exact List.nil_prefix

/-- An occurrence of `pat` at position `i` of `A ++ B` lies entirely in
`A`, entirely in `B`, or spans the boundary, in which case the tail of `A`
is the matching head of `pat` and the rest of `pat` occurs at the start of
`B`. -/
theorem prefix_drop_append_cases {pat A B : List Char} {i : Nat}
    (h : pat <+: (A ++ B).drop i) :
    (i + pat.length ≤ A.length ∧ pat <+: A.drop i)
    ∨ (A.length ≤ i ∧ pat <+: B.drop (i - A.length))
    ∨ (i < A.length ∧ A.length < i + pat.length ∧
        A.drop i = pat.take (A.length - i) ∧ pat.drop (A.length - i) <+: B) := by
  rcases Nat.lt_or_ge i A.length with hi | hi
  · rcases le_or_lt (i + pat.length) A.length with hlen | hlen
    · left
      refine ⟨hlen, ?_⟩
      rw [List.drop_append_of_le_length (le_of_lt hi)] at h
      rw [List.prefix_iff_eq_take] at h
      rw [List.take_append_of_le_length (by rw [List.length_drop]; omega)] at h
      exact List.prefix_iff_eq_take.2 h
    · right; right
      rw [List.drop_append_of_le_length (le_of_lt hi)] at h
      have hlenAi : (A.drop i).length = A.length - i := List.length_drop i A
      refine ⟨hi, hlen, ?_, ?_⟩
      · obtain ⟨r, hr⟩ := h
        have h1 : A.drop i = ((A.drop i) ++ B).take (A.length - i) := by
          rw [List.take_append_of_le_length (by omega), List.take_of_length_le (by omega)]
        rw [h1, ← hr, List.take_append_of_le_length (by omega)]
      · have h2 := prefix_drop_of_prefix h (A.length - i)
        rwa [show ((A.drop i) ++ B).drop (A.length - i) = B from by
          rw [← hlenAi, List.drop_left]] at h2
  · right; left
    refine ⟨hi, ?_⟩
    rw [show i = A.length + (i - A.length) by omega, List.drop_append] at h
    exact h

/-- No occurrence of `pat` anywhere in `A ++ B`, assembled from: none in
`A`, none in `B`, and no spanning occurrence. -/
theorem no_occurrence_append {pat A B : List Char}
    (hA : ∀ i, ¬ pat <+: A.drop i) (hB : ∀ i, ¬ pat <+: B.drop i)
    (hspan : ∀ k, 0 < k → k < pat.length →
      A.drop (A.length - k) = pat.take k → ¬ pat.drop k <+: B) :
    ∀ i, ¬ pat <+: (A ++ B).drop i := by
  intro i h
  rcases prefix_drop_append_cases h with ⟨_, h1⟩ | ⟨_, h1⟩ | ⟨hi, hlen, heq, h1⟩
  · exact hA i h1
  · exact hB _ h1
  · exact hspan (A.length - i) (by omega) (by omega)
      (by rw [show A.length - (A.length - i) = i by omega]; exact heq) h1

/-- Bounded check suffices: positions at or past the end carry no
occurrence of a nonempty pattern. -/
theorem no_occurrence_of_bounded {pat l : List Char} (hne : pat ≠ [])
    (h : ∀ i, i < l.length → ¬ pat <+: l.drop i) :
    ∀ i, ¬ pat <+: l.drop i := by
  intro i hp
  rcases Nat.lt_or_ge i l.length with hi | hi
  · exact h i hi hp
  · rw [List.drop_eq_nil_of_le hi] at hp
    obtain ⟨r, hr⟩ := hp
    cases pat with
    | nil => exact hne rfl
    | cons a t => cases hr

/-! ## Step lemmas for the pair matcher -/

theorem qaSearch_noClose (f : Nat) (body : List Char) (k : Nat)
    (h : findSub close1 (body.drop k) = none) : qaSearch f body k = none := by
  cases f with
  | zero => rfl
  | succ f => simp only [qaSearch, h]

theorem qaMatch_noClose (s : List Char) (h : ∀ i, ¬ close1 <+: s.drop i) :
    qaMatch s = none := by
  unfold qaMatch
  by_cases hp : open1.isPrefixOf s = true
  · rw [if_pos hp]
    have hn : findSub close1 ((s.drop 9).drop 0) = none := by
      refine (findSub_none_iff close1 _).2 (fun i hh => ?_)
      rw [List.drop_drop, List.drop_drop] at hh
      exact h _ hh
    rw [qaSearch_noClose _ _ _ hn]
    rfl
  · rw [if_neg hp]

theorem qaMatch_noOpen (s : List Char) (h : ¬ open1 <+: s) : qaMatch s = none := by
  unfold qaMatch
  rw [if_neg (fun hp => h (List.isPrefixOf_iff_prefix.1 hp))]

theorem qaMatch_pos {s g1 g2 : List Char} {n : Nat}
    (h : qaMatch s = some (g1, g2, n)) : 9 ≤ n := by
  unfold qaMatch at h
  by_cases hp : open1.isPrefixOf s = true
  · rw [if_pos hp] at h
    rcases hqs : qaSearch (s.length + 1) (s.drop 9) 0 with _ | r
    · rw [hqs] at h; cases h
    · rw [hqs] at h
      simp only [Option.map_some'] at h
      cases h
      omega
  · rw [if_neg hp] at h; cases h

theorem findQAF_nil (f : Nat) : findQAF f [] = [] := by cases f <;> rfl

theorem findQAF_fuel : ∀ (n f g : Nat) (l : List Char),
    l.length ≤ n → l.length ≤ f → l.length ≤ g → findQAF f l = findQAF g l := by
  intro n
  induction n with
  | zero =>
    intro f g l hl _ _
    match l, hl with
    | [], _ => rw [findQAF_nil, findQAF_nil]
  | succ n ih =>
    intro f g l hl hf hg
    match l with
    | [] => rw [findQAF_nil, findQAF_nil]
    | c :: t =>
      simp only [List.length_cons] at hl hf hg
      match f, g with
      | 0, _ => exact absurd hf (by omega)
      | _ + 1, 0 => exact absurd hg (by omega)
      | f + 1, g + 1 =>
        rcases hm : qaMatch (c :: t) with _ | ⟨g1, g2, nn⟩
        · simp only [findQAF, hm]
          exact ih f g t (by omega) (by omega) (by omega)
        · have hpos := qaMatch_pos hm
          simp only [findQAF, hm]
          have hdl : ((c :: t).drop nn).length = t.length + 1 - nn := by
            simp [List.length_drop]
          rw [ih f g ((c :: t).drop nn) (by rw [hdl]; omega) (by rw [hdl]; omega)
            (by rw [hdl]; omega)]

theorem findQA_match {s g1 g2 : List Char} {n : Nat}
    (h : qaMatch s = some (g1, g2, n)) :
    findQA s = (g1, g2) :: findQA (s.drop n) := by
  match s with
  | [] =>
    unfold qaMatch at h
    rw [if_neg (by decide)] at h
    cases h
  | c :: t =>
    have hpos := qaMatch_pos h
    show findQAF (t.length + 1) (c :: t) = _
    simp only [findQAF, h]
    congr 1
    refine findQAF_fuel t.length t.length ((c :: t).drop n).length ((c :: t).drop n) ?_ ?_ ?_ <;>
      (simp only [List.length_drop, List.length_cons]; omega)

theorem findQA_skip {c : Char} {t : List Char} (h : qaMatch (c :: t) = none) :
    findQA (c :: t) = findQA t := by
  show findQAF (t.length + 1) (c :: t) = _
  simp only [findQAF, h]
  rfl

theorem findQA_noMatch : ∀ l : List Char, (∀ i, qaMatch (l.drop i) = none) →
    findQA l = [] := by
  intro l
  induction l with
  | nil => intro _; rfl
  | cons c t ih =>
    intro h
    rw [findQA_skip (by simpa using h 0)]
    exact ih (fun i => by simpa using h (i + 1))

theorem findQA_noClose (l : List Char) (h : ∀ i, ¬ close1 <+: l.drop i) :
    findQA l = [] :=
  findQA_noMatch l (fun i => qaMatch_noClose _ (fun j => by
    rw [List.drop_drop]; exact h _))

theorem findQA_noOpen (l : List Char) (h : ∀ i, ¬ open1 <+: l.drop i) :
    findQA l = [] :=
  findQA_noMatch l (fun i => qaMatch_noOpen _ (h i))

/-! ## The matcher on one complete tag-pair group -/

theorem qaSearch_block (f : Nat) (q a R : List Char)
    (hq : charFree '<' q) (ha : charFree '<' a) :
    qaSearch (f + 1) (q ++ (close1 ++ (open2 ++ (a ++ (close2 ++ R))))) 0 =
      some (q, a, q.length + a.length + 29) := by
  set Y : List Char := close1 ++ (open2 ++ (a ++ (close2 ++ R))) with hY
  have hfs1 : findSub close1 ((q ++ Y).drop 0) = some q.length := by
    rw [List.drop_zero]
    refine findSub_spec close1 _ _ ?_ ?_
    · rw [show q.length = q.length from rfl]
      have : (q ++ Y).drop q.length = Y := List.drop_left q Y
      rw [this, hY]
      exact List.prefix_append close1 _
    · intro j hj
      exact not_prefix_in_ltFree (by decide) q Y hq hj
  simp only [qaSearch, hfs1]
  have hafter : (q ++ Y).drop (0 + q.length + 10) = open2 ++ (a ++ (close2 ++ R)) := by
    rw [hY, show q ++ (close1 ++ (open2 ++ (a ++ (close2 ++ R))))
        = (q ++ close1) ++ (open2 ++ (a ++ (close2 ++ R))) from
        (List.append_assoc q close1 _).symm,
      show 0 + q.length + 10 = (q ++ close1).length from by
        simp [close1, List.length_append],
      List.drop_left]
  rw [hafter]
  have hws : (open2 ++ (a ++ (close2 ++ R))).takeWhile wsChar = [] := by
    rw [show open2 ++ (a ++ (close2 ++ R)) = '<' :: (['P','e','r','s','o','n','2','>'] ++ (a ++ (close2 ++ R))) from rfl]
    rw [List.takeWhile_cons, if_neg (by decide)]
  rw [hws]
  have hpre2 : open2.isPrefixOf ((open2 ++ (a ++ (close2 ++ R))).drop
      (List.length ([] : List Char))) = true := by
    simp only [List.length_nil, List.drop_zero]
    exact List.isPrefixOf_iff_prefix.2 (List.prefix_append open2 _)
  rw [if_pos hpre2]
  have htail2 : (open2 ++ (a ++ (close2 ++ R))).drop (List.length ([] : List Char) + 9)
      = a ++ (close2 ++ R) := by
    simp only [List.length_nil, Nat.zero_add]
    exact List.drop_left open2 _
  rw [htail2]
  have hfs2 : findSub close2 (a ++ (close2 ++ R)) = some a.length := by
    refine findSub_spec close2 _ _ ?_ ?_
    · have : (a ++ (close2 ++ R)).drop a.length = close2 ++ R := List.drop_left a _
      rw [this]
      exact List.prefix_append close2 _
    · intro j hj
      exact not_prefix_in_ltFree (by decide) a _ ha hj
  rw [hfs2]
  simp only [Option.some.injEq, Prod.mk.injEq]
  refine ⟨?_, ?_, ?_⟩
  · rw [show (0 : Nat) + q.length = q.length by omega]
    exact List.take_left q Y
  · exact List.take_left a _
  · simp only [List.length_nil]
    omega

theorem renderPair_length (q a : List Char) :
    (renderPair q a).length = q.length + a.length + 38 := by
  simp only [renderPair, List.length_append, open1, close1, open2, close2]
  simp
  omega

theorem qaMatch_block (q a R : List Char) (hq : charFree '<' q) (ha : charFree '<' a) :
    qaMatch (renderPair q a ++ R) = some (q, a, q.length + a.length + 38) := by
  unfold qaMatch
  have hassoc : renderPair q a ++ R
      = open1 ++ (q ++ (close1 ++ (open2 ++ (a ++ (close2 ++ R))))) := by
    simp [renderPair, List.append_assoc]
  have hpre : open1.isPrefixOf (renderPair q a ++ R) = true := by
    rw [hassoc]
    exact List.isPrefixOf_iff_prefix.2 (List.prefix_append open1 _)
  rw [if_pos hpre]
  have hdrop : (renderPair q a ++ R).drop 9 = q ++ (close1 ++ (open2 ++ (a ++ (close2 ++ R)))) := by
    rw [hassoc, show (9 : Nat) = open1.length from rfl, List.drop_left]
  rw [hdrop, qaSearch_block _ q a R hq ha]
  simp only [Option.map_some', Option.some.injEq, Prod.mk.injEq]
  exact ⟨trivial, trivial, by omega⟩

theorem findQA_block (q a R : List Char) (hq : charFree '<' q) (ha : charFree '<' a) :
    findQA (renderPair q a ++ R) = (q, a) :: findQA R := by
  rw [findQA_match (qaMatch_block q a R hq ha)]
  congr 1
  rw [show q.length + a.length + 38 = (renderPair q a).length from (renderPair_length q a).symm,
    List.drop_left]

/-! ## No-occurrence facts for the appended ending block -/

theorem not_prefix_in_ltFree_plain {pat : List Char} (hpat : pat.head? = some '<')
    (q : List Char) (hq : charFree '<' q) {j : Nat} (hj : j < q.length) :
    ¬ pat <+: q.drop j := by
  have h := not_prefix_in_ltFree hpat q [] hq hj
  rwa [List.append_nil] at h

theorem no_occ_in_ltFree {pat : List Char} (hpat : pat.head? = some '<')
    (q : List Char) (hq : charFree '<' q) : ∀ i, ¬ pat <+: q.drop i := by
  have hne : pat ≠ [] := by intro e; rw [e] at hpat; cases hpat
  refine no_occurrence_of_bounded hne (fun i hi => ?_)
  exact not_prefix_in_ltFree_plain hpat q hq hi

theorem ltFree_no_take_lt {q : List Char} (hq : charFree '<' q) {pat : List Char}
    (hpat : pat.head? = some '<') {j k : Nat} (hk : 0 < k)
    (h : q.drop j = pat.take k) : False := by
  cases pat with
  | nil => cases hpat
  | cons p pt =>
    have hp : p = '<' := by simpa using hpat
    match k, hk with
    | k + 1, _ =>
      rw [List.take_succ_cons] at h
      have hmem : '<' ∈ q.drop j := by rw [h, hp]; simp
      exact hq '<' (List.mem_of_mem_drop hmem) rfl

/-- No occurrence of `</Person1>` in `<Person2>` ++ `ending` ++ `</Person2>`
when the ending text itself contains none. -/
theorem no_close1_in_endBlock (e : List Char) (he : ∀ i, ¬ close1 <+: e.drop i) :
    ∀ i, ¬ close1 <+: (open2 ++ (e ++ close2)).drop i := by
  refine no_occurrence_append ?_ ?_ ?_
  · intro i
    apply not_prefix_of_length
    rw [List.length_drop, open2_length, close1_length]
    omega
  · refine no_occurrence_append he ?_ ?_
    · refine no_occurrence_of_bounded (by decide) (fun i hi => ?_)
      rw [close2_length] at hi
      interval_cases i <;> decide
    · intro k hk0 hk10 _ hpre
      rw [close1_length] at hk10
      interval_cases k <;> revert hpre <;> decide
  · intro k hk0 hk9 heq _
    rw [close1_length] at hk9
    interval_cases k <;> exact absurd heq (by decide)

/-- No occurrence of `<Person1>` in the same block when the ending text is
`'<'`-free. -/
theorem no_open1_in_endBlock (e : List Char) (he : charFree '<' e) :
    ∀ i, ¬ open1 <+: (open2 ++ (e ++ close2)).drop i := by
  refine no_occurrence_append ?_ ?_ ?_
  · refine no_occurrence_of_bounded (by decide) (fun i hi => ?_)
    rw [open2_length] at hi
    interval_cases i <;> decide
  · refine no_occurrence_append (no_occ_in_ltFree (by decide) e he) ?_ ?_
    · refine no_occurrence_of_bounded (by decide) (fun i hi => ?_)
      rw [close2_length] at hi
      interval_cases i <;> decide
    · intro k hk0 hk9 heq _
      exact ltFree_no_take_lt he (by decide) hk0 heq
  · intro k hk0 hk9 heq _
    rw [open1_length] at hk9
    interval_cases k <;> exact absurd heq (by decide)

/-- In `text ++ </Person1> ++ rest`, occurrences of `</Person1>` at or past
`text` start exactly at `text.length` when `text` is `'<'`-free and `rest`
carries none. -/
theorem qaSearch_no_open2_after (body : List Char)
    (hno : ∀ p, close1 <+: body.drop p →
      ¬ open2 <+: ((body.drop (p + 10)).drop
        ((body.drop (p + 10)).takeWhile wsChar).length)) :
    ∀ f k, qaSearch f body k = none := by
  intro f
  induction f with
  | zero => intro k; rfl
  | succ f ih =>
    intro k
    rcases hfs : findSub close1 (body.drop k) with _ | i
    · simp only [qaSearch, hfs]
    · simp only [qaSearch, hfs]
      have hocc : close1 <+: body.drop (k + i) := by
        have h := findSub_some_prefix close1 _ _ hfs
        rwa [List.drop_drop] at h
      rw [if_neg (fun hp => hno (k + i) hocc (List.isPrefixOf_iff_prefix.1 hp))]
      exact ih (k + i + 1)

/-- A trailing `<Person1>q</Person1>` with nothing after it yields no match:
after its closing tag there is no `<Person2>` to pair with. -/
theorem findQA_dangling (q : List Char) (hq : charFree '<' q) :
    findQA (renderDangling q) = [] := by
  have hassoc : renderDangling q = open1 ++ (q ++ close1) := by
    simp [renderDangling, List.append_assoc]
  have hX : ∀ i, close1 <+: (q ++ close1).drop i → i = q.length := by
    intro i hp
    by_contra hi
    rcases prefix_drop_append_cases hp with ⟨hle, h1⟩ | ⟨hge, h1⟩ | ⟨hiq, hlenq, heq, _⟩
    · refine not_prefix_in_ltFree_plain (by decide) q hq ?_ h1
      rw [close1_length] at hle
      omega
    · have h10 : close1.length ≤ (close1.drop (i - q.length)).length := h1.length_le
      rw [List.length_drop, close1_length] at h10
      exact hi (by omega)
    · exact ltFree_no_take_lt hq (by decide) (by omega) heq
  apply findQA_noMatch
  intro i
  by_cases hp : open1 <+: (renderDangling q).drop i
  · rw [hassoc] at hp
    rcases prefix_drop_append_cases hp with ⟨hle, h1⟩ | ⟨hge, h1⟩ | ⟨hilt, hlen, heq, _⟩
    · have hi0 : i = 0 := by
        rw [open1_length] at hle
        omega
      subst hi0
      rw [show (renderDangling q).drop 0 = renderDangling q from List.drop_zero _, hassoc]
      unfold qaMatch
      rw [if_pos (List.isPrefixOf_iff_prefix.2 (List.prefix_append open1 _))]
      have hbody : (open1 ++ (q ++ close1)).drop 9 = q ++ close1 :=
        List.drop_left open1 _
      rw [hbody]
      have hno : ∀ p, close1 <+: (q ++ close1).drop p →
          ¬ open2 <+: (((q ++ close1).drop (p + 10)).drop
            (((q ++ close1).drop (p + 10)).takeWhile wsChar).length) := by
        intro p hocc
        have hp' := hX p hocc
        subst hp'
        have hnil : (q ++ close1).drop (q.length + 10) = [] := by
          apply List.drop_eq_nil_of_le
          simp [close1]
        rw [hnil]
        intro hpre
        have hlp := hpre.length_le
        simp [open2] at hlp
      rw [qaSearch_no_open2_after (q ++ close1) hno _ 0]
      rfl
    · exfalso
      rcases prefix_drop_append_cases h1 with ⟨hle2, h2⟩ | ⟨hge2, h2⟩ | ⟨hiq2, _, heq2, _⟩
      · refine not_prefix_in_ltFree_plain (by decide) q hq ?_ h2
        rw [open1_length] at hle2
        rw [open1_length]
        omega
      · revert h2
        refine no_occurrence_of_bounded (by decide) (fun j hj => ?_) _
        rw [close1_length] at hj
        interval_cases j <;> decide
      · exact ltFree_no_take_lt hq (by decide) (by omega) heq2
    · exact absurd heq (by
        have h0 : 0 < i := by
          rw [open1_length] at hlen
          omega
        have h9 : i < 9 := by
          rw [open1_length] at hilt
          exact hilt
        interval_cases i <;> decide)
  · exact qaMatch_noOpen _ hp

/-! ## `split_qa` on structured transcripts -/

theorem renderPairs_cons (p : List Char × List Char) (ps : List (List Char × List Char)) :
    renderPairs (p :: ps) = renderPair p.1 p.2 ++ renderPairs ps := by
  simp [renderPairs]

theorem findQA_renderPairs (ps : List (List Char × List Char)) (R : List Char)
    (hps : ∀ p ∈ ps, charFree '<' p.1 ∧ charFree '<' p.2) :
    findQA (renderPairs ps ++ R) = ps ++ findQA R := by
  induction ps with
  | nil => simp [renderPairs]
  | cons p ps ih =>
    have h1 := hps p (by simp)
    rw [renderPairs_cons, List.append_assoc, findQA_block _ _ _ h1.1 h1.2,
      ih (fun x hx => hps x (by simp [hx]))]
    rfl

theorem findQA_renderPair_alone (q a : List Char) (hq : charFree '<' q)
    (ha : charFree '<' a) : findQA (renderPair q a) = [(q, a)] := by
  rw [← List.append_nil (renderPair q a), findQA_block _ _ _ hq ha]
  rfl

/-! ## Sequential synthesis loop -/

theorem openaiLoop_error {E : Type} (synth : Nat → Except E Unit) :
    ∀ (k c j : Nat) (e : E), j < k → synth (c + j) = .error e →
      (∀ i, i < j → synth (c + i) = .ok ()) →
      (openaiLoop synth c k).2 = some e := by
  intro k
  induction k with
  | zero => intro c j e hj _ _; omega
  | succ k ih =>
    intro c j e hj hfail hok
    match j, hj with
    | 0, _ =>
      simp only [Nat.add_zero] at hfail
      simp [openaiLoop, hfail]
    | j' + 1, hj =>
      have h0 : synth c = .ok () := by
        have := hok 0 (Nat.succ_pos _)
        simpa using this
      simp only [openaiLoop, h0]
      refine ih (c + 1) j' e (by omega) ?_ ?_
      · have : c + 1 + j' = c + (j' + 1) := by omega
        rw [this]; exact hfail
      · intro i hi
        have : c + 1 + i = c + (i + 1) := by omega
        rw [this]; exact hok (i + 1) (by omega)

/-! ## Pass 1 of the sanitizer on tag-shaped prefixes -/

theorem charFree_append {c : Char} {a b : List Char} (ha : charFree c a)
    (hb : charFree c b) : charFree c (a ++ b) := by
  intro x hx
  rcases List.mem_append.1 hx with h | h
  · exact ha x h
  · exact hb x h

theorem tagLookahead_of_mem (nm m : List Char) (hm : nm ∈ supportedTags) :
    tagLookahead (nm ++ ('>' :: m)) = true := by
  unfold tagLookahead
  refine List.any_eq_true.2 ⟨nm, hm, ?_⟩
  rw [Bool.and_eq_true]
  refine ⟨List.isPrefixOf_iff_prefix.2 (List.prefix_append _ _), ?_⟩
  rw [List.drop_left]
  rfl

theorem tagLookahead_slash (u : List Char) : tagLookahead ('/' :: u) = false := by
  unfold tagLookahead supportedTags
  simp [List.isPrefixOf]

theorem tailTagMatch_person1 (m : List Char) :
    tailTagMatch ("Person1".toList ++ ('>' :: m)) = none := by
  unfold tailTagMatch
  rw [tagLookahead_of_mem "Person1".toList m (by decide)]
  rfl

theorem tailTagMatch_person2 (m : List Char) :
    tailTagMatch ("Person2".toList ++ ('>' :: m)) = none := by
  unfold tailTagMatch
  rw [tagLookahead_of_mem "Person2".toList m (by decide)]
  rfl

theorem tailTagMatch_slash1 (m : List Char) :
    tailTagMatch ('/' :: ("Person1".toList ++ ('>' :: m))) = some 9 := by
  unfold tailTagMatch
  rw [tagLookahead_slash]
  have hrun : runNonGt ('/' :: ("Person1".toList ++ ('>' :: m))) = 8 := by
    unfold runNonGt
    rw [show '/' :: ("Person1".toList ++ ('>' :: m)) = "/Person1".toList ++ ('>' :: m) from rfl]
    rw [takeWhile_append_all _ _ (by decide)]
    rw [show List.takeWhile (fun c => c != '>') ('>' :: m) = [] from by
      rw [List.takeWhile_cons]; rfl]
    rfl
  rw [hrun]
  rfl

theorem tailTagMatch_slash2 (m : List Char) :
    tailTagMatch ('/' :: ("Person2".toList ++ ('>' :: m))) = some 9 := by
  unfold tailTagMatch
  rw [tagLookahead_slash]
  have hrun : runNonGt ('/' :: ("Person2".toList ++ ('>' :: m))) = 8 := by
    unfold runNonGt
    rw [show '/' :: ("Person2".toList ++ ('>' :: m)) = "/Person2".toList ++ ('>' :: m) from rfl]
    rw [takeWhile_append_all _ _ (by decide)]
    rw [show List.takeWhile (fun c => c != '>') ('>' :: m) = [] from by
      rw [List.takeWhile_cons]; rfl]
    rfl
  rw [hrun]
  rfl

theorem tagMatchLen_open1 (m : List Char) :
    tagMatchLen ('<' :: ("Person1>".toList ++ m)) = none := by
  have h : tailTagMatch ("Person1>".toList ++ m) = none := tailTagMatch_person1 m
  show (tailTagMatch ("Person1>".toList ++ m)).map (1 + ·) = none
  rw [h]
  rfl

theorem tagMatchLen_open2 (m : List Char) :
    tagMatchLen ('<' :: ("Person2>".toList ++ m)) = none := by
  have h : tailTagMatch ("Person2>".toList ++ m) = none := tailTagMatch_person2 m
  show (tailTagMatch ("Person2>".toList ++ m)).map (1 + ·) = none
  rw [h]
  rfl

theorem tagMatchLen_close1 (m : List Char) :
    tagMatchLen ('<' :: '/' :: ("Person1>".toList ++ m)) = some 10 := by
  have h1 : tailTagMatch ("Person1>".toList ++ m) = none := tailTagMatch_person1 m
  have h2 : tailTagMatch ('/' :: ("Person1>".toList ++ m)) = some 9 := tailTagMatch_slash1 m
  show (match tailTagMatch ("Person1>".toList ++ m) with
        | some n => some (2 + n)
        | none => (tailTagMatch ('/' :: ("Person1>".toList ++ m))).map (1 + ·)) = some 10
  rw [h1, h2]
  rfl

theorem tagMatchLen_close2 (m : List Char) :
    tagMatchLen ('<' :: '/' :: ("Person2>".toList ++ m)) = some 10 := by
  have h1 : tailTagMatch ("Person2>".toList ++ m) = none := tailTagMatch_person2 m
  have h2 : tailTagMatch ('/' :: ("Person2>".toList ++ m)) = some 9 := tailTagMatch_slash2 m
  show (match tailTagMatch ("Person2>".toList ++ m) with
        | some n => some (2 + n)
        | none => (tailTagMatch ('/' :: ("Person2>".toList ++ m))).map (1 + ·)) = some 10
  rw [h1, h2]
  rfl

theorem tagMatchLen_ne_lt (c : Char) (t : List Char) (hc : c ≠ '<') :
    tagMatchLen (c :: t) = none := by
  unfold tagMatchLen
  split
  · rename_i u heq
    exact absurd (by injection heq) hc
  · rename_i u heq
    exact absurd (by injection heq) hc
  · rfl

theorem removeTagsF_nil (f : Nat) : removeTagsF f [] = [] := by cases f <;> rfl

theorem removeTagsF_step (f : Nat) (c : Char) (t : List Char) (hc : c ≠ '<') :
    removeTagsF (f + 1) (c :: t) = c :: removeTagsF f t := by
  simp only [removeTagsF, tagMatchLen_ne_lt c t hc]

theorem removeTagsF_copy : ∀ (pre : List Char), charFree '<' pre →
    ∀ (f : Nat) (m : List Char),
      removeTagsF (pre.length + f) (pre ++ m) = pre ++ removeTagsF f m := by
  intro pre
  induction pre with
  | nil => intro _ f m; simp
  | cons c t ih =>
    intro h f m
    have hc : c ≠ '<' := h c (by simp)
    rw [show (c :: t).length + f = (t.length + f) + 1 from by
      simp only [List.length_cons]; omega]
    rw [List.cons_append, removeTagsF_step _ _ _ hc,
      ih (fun x hx => h x (by simp [hx])) f m]
    rfl

theorem tagMatchLen_pos (s : List Char) (n : Nat) (h : tagMatchLen s = some n) :
    1 ≤ n := by
  unfold tagMatchLen at h
  split at h
  · rcases htt : tailTagMatch _ with _ | k <;> rw [htt] at h
    · rcases Option.map_eq_some'.1 h with ⟨a, _, ha⟩
      omega
    · injection h with h
      omega
  · rcases Option.map_eq_some'.1 h with ⟨a, _, ha⟩
    omega
  · cases h

theorem removeTagsF_fuel : ∀ (n : Nat) (l : List Char) (f g : Nat),
    l.length ≤ n → l.length ≤ f → l.length ≤ g → removeTagsF f l = removeTagsF g l := by
  intro n
  induction n with
  | zero =>
    intro l f g hl _ _
    match l, hl with
    | [], _ => rw [removeTagsF_nil, removeTagsF_nil]
  | succ n ih =>
    intro l f g hl hf hg
    match l with
    | [] => rw [removeTagsF_nil, removeTagsF_nil]
    | c :: t =>
      simp only [List.length_cons] at hl hf hg
      match f, g, hf, hg with
      | f + 1, g + 1, hf, hg =>
        rcases hm : tagMatchLen (c :: t) with _ | k
        · simp only [removeTagsF, hm]
          rw [ih t f g (by omega) (by omega) (by omega)]
        · have hk := tagMatchLen_pos _ _ hm
          simp only [removeTagsF, hm]
          rw [ih ((c :: t).drop k) f g
            (by rw [List.length_drop]; simp only [List.length_cons]; omega)
            (by rw [List.length_drop]; simp only [List.length_cons]; omega)
            (by rw [List.length_drop]; simp only [List.length_cons]; omega)]

theorem dialogue_cons (b : Bool × List Char) (bs : List (Bool × List Char)) :
    dialogue (b :: bs) = dialogueBlock b.1 b.2 ++ dialogue bs := by
  simp [dialogue]

theorem openBlocks_cons (b : Bool × List Char) (bs : List (Bool × List Char)) :
    openBlocks (b :: bs) = openSeg b ++ openBlocks bs := by
  simp [openBlocks]

theorem halfBlocks_cons (b : Bool × List Char) (bs : List (Bool × List Char)) :
    halfBlocks (b :: bs) = halfSeg b ++ halfBlocks bs := by
  simp [halfBlocks]

theorem removeTags_block (p1 : Bool) (t rest : List Char) (ht : charFree '<' t) (f : Nat) :
    removeTagsF ((10 + t.length) + f) (dialogueBlock p1 t ++ rest)
      = openSeg (p1, t) ++ removeTagsF f rest := by
  have hpre1 : charFree '<' ("Person1>".toList ++ t) :=
    charFree_append (by decide) ht
  have hpre2 : charFree '<' ("Person2>".toList ++ t) :=
    charFree_append (by decide) ht
  cases p1
  · show removeTagsF ((10 + t.length) + f) ((open2 ++ t ++ close2) ++ rest)
      = (open2 ++ t) ++ removeTagsF f rest
    rw [show (open2 ++ t ++ close2) ++ rest
        = '<' :: (("Person2>".toList ++ t) ++ (close2 ++ rest)) from by
      simp [List.append_assoc]
      rfl]
    rw [show (10 + t.length) + f = (("Person2>".toList ++ t).length + (1 + f)) + 1 from by
      simp only [List.length_append]
      rw [show ("Person2>".toList).length = 8 from rfl]
      omega]
    simp only [removeTagsF]
    rw [show tagMatchLen ('<' :: (("Person2>".toList ++ t) ++ (close2 ++ rest))) = none from by
      rw [List.append_assoc]
      exact tagMatchLen_open2 _]
    rw [removeTagsF_copy _ hpre2 (1 + f) (close2 ++ rest)]
    rw [show close2 ++ rest = '<' :: '/' :: ("Person2>".toList ++ rest) from rfl]
    rw [show (1 + f) = f + 1 from by omega]
    simp only [removeTagsF, tagMatchLen_close2]
    rw [show ('<' :: '/' :: ("Person2>".toList ++ rest)).drop 10
        = ("Person2>".toList ++ rest).drop 8 from rfl]
    rw [show (8 : Nat) = ("Person2>".toList).length from rfl, List.drop_left]
    simp [List.append_assoc]
    rfl
  · show removeTagsF ((10 + t.length) + f) ((open1 ++ t ++ close1) ++ rest)
      = (open1 ++ t) ++ removeTagsF f rest
    rw [show (open1 ++ t ++ close1) ++ rest
        = '<' :: (("Person1>".toList ++ t) ++ (close1 ++ rest)) from by
      simp [List.append_assoc]
      rfl]
    rw [show (10 + t.length) + f = (("Person1>".toList ++ t).length + (1 + f)) + 1 from by
      simp only [List.length_append]
      rw [show ("Person1>".toList).length = 8 from rfl]
      omega]
    simp only [removeTagsF]
    rw [show tagMatchLen ('<' :: (("Person1>".toList ++ t) ++ (close1 ++ rest))) = none from by
      rw [List.append_assoc]
      exact tagMatchLen_open1 _]
    rw [removeTagsF_copy _ hpre1 (1 + f) (close1 ++ rest)]
    rw [show close1 ++ rest = '<' :: '/' :: ("Person1>".toList ++ rest) from rfl]
    rw [show (1 + f) = f + 1 from by omega]
    simp only [removeTagsF, tagMatchLen_close1]
    rw [show ('<' :: '/' :: ("Person1>".toList ++ rest)).drop 10
        = ("Person1>".toList ++ rest).drop 8 from rfl]
    rw [show (8 : Nat) = ("Person1>".toList).length from rfl, List.drop_left]
    simp [List.append_assoc]
    rfl

theorem removeTags_dialogue : ∀ (bs : List (Bool × List Char)),
    (∀ b ∈ bs, charFree '<' b.2) → ∀ f,
      removeTagsF (removeFuel bs + f) (dialogue bs) = openBlocks bs := by
  intro bs
  induction bs with
  | nil => intro _ f; exact removeTagsF_nil _
  | cons b bs ih =>
    intro h f
    rw [dialogue_cons, openBlocks_cons]
    rw [show removeFuel (b :: bs) + f = (10 + b.2.length) + (removeFuel bs + f) from by
      simp only [removeFuel, List.map_cons, List.sum_cons]
      omega]
    rw [removeTags_block b.1 b.2 (dialogue bs) (h b (by simp)) (removeFuel bs + f)]
    rw [ih (fun x hx => h x (by simp [hx])) f]

/-! ## Pass 2 (newline collapsing) on newline-free text -/

theorem collapseNlF_nlFree : ∀ (l : List Char), charFree '\n' l → ∀ f, l.length ≤ f →
    collapseNlF f l = l := by
  intro l
  induction l with
  | nil => intro _ f _; cases f <;> rfl
  | cons c t ih =>
    intro h f hf
    simp only [List.length_cons] at hf
    match f, hf with
    | f + 1, hf =>
      have hc : c ≠ '\n' := h c (by simp)
      simp only [collapseNlF, if_neg hc]
      rw [ih (fun x hx => h x (by simp [hx])) f (by omega)]

theorem charFree_openBlocks (bs : List (Bool × List Char))
    (h : ∀ b ∈ bs, charFree '\n' b.2) : charFree '\n' (openBlocks bs) := by
  induction bs with
  | nil =>
    intro x hx
    rw [show openBlocks [] = [] from rfl] at hx
    cases hx
  | cons b bs ih =>
    rw [openBlocks_cons]
    refine charFree_append ?_ (ih (fun x hx => h x (by simp [hx])))
    unfold openSeg
    cases hb : b.1
    · rw [if_neg (by simp)]
      exact charFree_append (by decide) (h b (by simp))
    · rw [if_pos rfl]
      exact charFree_append (by decide) (h b (by simp))

/-! ## The closer-adding passes: content selection and stop positions -/

theorem takeContent_append : ∀ l : List Char, (takeContent l).1 ++ (takeContent l).2 = l := by
  intro l
  induction l with
  | nil => rfl
  | cons c t ih =>
    by_cases hs : stopCond (c :: t) = true
    · simp only [takeContent, if_pos hs]
      rfl
    · simp only [takeContent, if_neg hs]
      rw [List.cons_append, ih]

theorem takeContent_stopCond : ∀ l : List Char, stopCond (takeContent l).2 = true := by
  intro l
  induction l with
  | nil => rfl
  | cons c t ih =>
    by_cases hs : stopCond (c :: t) = true
    · simp only [takeContent, if_pos hs]
      exact hs
    · simp only [takeContent, if_neg hs]
      exact ih

theorem takeContent_length (l : List Char) : (takeContent l).2.length ≤ l.length := by
  have h := congrArg List.length (takeContent_append l)
  rw [List.length_append] at h
  omega

theorem stopCond_false_of_head (c : Char) (X : List Char) (hc1 : c ≠ '<')
    (hc2 : c ≠ '\n') : stopCond (c :: X) = false := by
  have e2 : ((c :: X) == ['\n']) = false := by
    apply Bool.eq_false_iff.2
    intro hb
    have := eq_of_beq hb
    injection this with h1 _
    exact hc2 h1
  have e3 : open1.isPrefixOf (c :: X) = false := by
    apply Bool.eq_false_iff.2
    intro hb
    have hp := List.isPrefixOf_iff_prefix.1 hb
    have h5 := head_eq_of_prefix hp (by decide)
    rw [show open1.head? = some '<' from rfl] at h5
    exact hc1 (by simpa using h5)
  have e4 : open2.isPrefixOf (c :: X) = false := by
    apply Bool.eq_false_iff.2
    intro hb
    have hp := List.isPrefixOf_iff_prefix.1 hb
    have h5 := head_eq_of_prefix hp (by decide)
    rw [show open2.head? = some '<' from rfl] at h5
    exact hc1 (by simpa using h5)
  unfold stopCond
  rw [e2, e3, e4]
  rfl

theorem stopCond_of_open1 (X : List Char) : stopCond (open1 ++ X) = true := by
  unfold stopCond
  rw [List.isPrefixOf_iff_prefix.2 (List.prefix_append open1 X)]
  simp

theorem stopCond_of_open2 (X : List Char) : stopCond (open2 ++ X) = true := by
  unfold stopCond
  rw [List.isPrefixOf_iff_prefix.2 (List.prefix_append open2 X)]
  simp

theorem takeContent_blockText : ∀ (t : List Char), charFree '<' t → charFree '\n' t →
    ∀ m, stopCond m = true → takeContent (t ++ m) = (t, m) := by
  intro t
  induction t with
  | nil =>
    intro _ _ m hm
    match m with
    | [] => rfl
    | c :: u => simp only [List.nil_append, takeContent, if_pos hm]
  | cons c t ih =>
    intro h1 h2 m hm
    have hs : stopCond (c :: (t ++ m)) = false :=
      stopCond_false_of_head c _ (h1 c (by simp)) (h2 c (by simp))
    rw [List.cons_append]
    simp only [takeContent, hs, Bool.false_eq_true, if_false]
    rw [ih (fun x hx => h1 x (by simp [hx])) (fun x hx => h2 x (by simp [hx])) m hm]

/-! ## The closer-adding passes: step, copy and fuel lemmas -/

theorem addClosersF_nil (opn cls : List Char) (f : Nat) :
    addClosersF opn cls f [] = [] := by
  cases f <;> rfl

theorem addClosersF_copy (opn cls : List Char) :
    ∀ (pre m : List Char) (f : Nat),
      (∀ i, i < pre.length → ¬ opn <+: (pre ++ m).drop i) →
      addClosersF opn cls (pre.length + f) (pre ++ m) = pre ++ addClosersF opn cls f m := by
  intro pre
  induction pre with
  | nil => intro m f _; simp
  | cons c t ih =>
    intro m f h
    have h0 : ¬ opn.isPrefixOf (c :: (t ++ m)) = true := by
      intro hb
      exact h 0 (by simp) (by simpa using List.isPrefixOf_iff_prefix.1 hb)
    rw [show (c :: t).length + f = (t.length + f) + 1 from by
      simp only [List.length_cons]; omega]
    rw [List.cons_append]
    simp only [addClosersF, if_neg h0]
    rw [ih m f (fun i hi => by
      have := h (i + 1) (by simp only [List.length_cons]; omega)
      simpa using this)]
    rfl

theorem addClosersF_match (opn cls : List Char) (c : Char) (u m : List Char) (f : Nat)
    (hm : opn = c :: u) :
    addClosersF opn cls (f + 1) ((c :: u) ++ m)
      = opn ++ (takeContent m).1 ++ cls ++ addClosersF opn cls f (takeContent m).2 := by
  have hp : opn.isPrefixOf (c :: (u ++ m)) = true := by
    rw [hm]
    exact List.isPrefixOf_iff_prefix.2 ⟨m, by simp⟩
  have hd : (c :: (u ++ m)).drop opn.length = m := by
    rw [hm]
    show ((c :: u) ++ m).drop (c :: u).length = m
    exact List.drop_left _ _
  rw [List.cons_append]
  simp only [addClosersF, if_pos hp]
  rw [hd]

theorem addClosersF_fuel (opn cls : List Char) (hopn : opn ≠ []) :
    ∀ (n : Nat) (l : List Char) (f g : Nat), l.length ≤ n → l.length ≤ f → l.length ≤ g →
      addClosersF opn cls f l = addClosersF opn cls g l := by
  have hol : 1 ≤ opn.length := by
    cases opn with
    | nil => exact absurd rfl hopn
    | cons _ _ => simp
  intro n
  induction n with
  | zero =>
    intro l f g hl _ _
    match l, hl with
    | [], _ => rw [addClosersF_nil, addClosersF_nil]
  | succ n ih =>
    intro l f g hl hf hg
    match l with
    | [] => rw [addClosersF_nil, addClosersF_nil]
    | c :: t =>
      simp only [List.length_cons] at hl hf hg
      match f, g, hf, hg with
      | f + 1, g + 1, hf, hg =>
        by_cases hp : opn.isPrefixOf (c :: t) = true
        · simp only [addClosersF, if_pos hp]
          have hlen := takeContent_length ((c :: t).drop opn.length)
          rw [List.length_drop] at hlen
          simp only [List.length_cons] at hlen
          rw [ih ((takeContent ((c :: t).drop opn.length)).2) f g
            (by omega) (by omega) (by omega)]
        · simp only [addClosersF, if_neg hp]
          rw [ih t f g (by omega) (by omega) (by omega)]

/-! ## No preserved-tag opening inside copied segments -/

theorem not_prefix_append_left (pat B : List Char) (hlen : pat.length ≤ B.length)
    (hne : B.take pat.length ≠ pat) (X : List Char) : ¬ pat <+: B ++ X := by
  intro h
  rw [List.prefix_iff_eq_take, List.take_append_of_le_length hlen] at h
  exact hne h.symm

theorem no_o1_in_open2seg (t : List Char) (ht : charFree '<' t) (m : List Char) :
    ∀ i, i < 9 + t.length → ¬ open1 <+: ((open2 ++ t) ++ m).drop i := by
  intro i hi h
  rw [List.append_assoc] at h
  rcases Nat.lt_or_ge i 9 with h9 | h9
  · rw [List.drop_append_of_le_length (by rw [open2_length]; omega)] at h
    interval_cases i
    · exact not_prefix_append_left open1 open2 (by decide) (by decide) _ (by simpa using h)
    all_goals {
      have hh := head_eq_of_prefix h (by decide)
      rw [show open1.head? = some '<' from rfl] at hh
      simp [open2] at hh
    }
  · rw [show i = open2.length + (i - 9) from by rw [open2_length]; omega,
      List.drop_append] at h
    exact not_prefix_in_ltFree (by decide) t m ht (by omega) h

theorem no_o2_in_closedseg (t : List Char) (ht : charFree '<' t) (m : List Char) :
    ∀ i, i < 19 + t.length → ¬ open2 <+: ((open1 ++ t ++ close1) ++ m).drop i := by
  intro i hi h
  rw [show (open1 ++ t ++ close1) ++ m = open1 ++ (t ++ (close1 ++ m)) from by
    simp [List.append_assoc]] at h
  rcases Nat.lt_or_ge i 9 with h9 | h9
  · rw [List.drop_append_of_le_length (by rw [open1_length]; omega)] at h
    interval_cases i
    · exact not_prefix_append_left open2 open1 (by decide) (by decide) _ (by simpa using h)
    all_goals {
      have hh := head_eq_of_prefix h (by decide)
      rw [show open2.head? = some '<' from rfl] at hh
      simp [open1] at hh
    }
  · rw [show i = open1.length + (i - 9) from by rw [open1_length]; omega,
      List.drop_append] at h
    rcases Nat.lt_or_ge (i - 9) t.length with hlt | hge
    · exact not_prefix_in_ltFree (by decide) t (close1 ++ m) ht hlt h
    · rw [show i - 9 = t.length + (i - 9 - t.length) from by omega, List.drop_append] at h
      have hk : i - 9 - t.length < 10 := by omega
      revert h hk
      generalize i - 9 - t.length = k
      intro h hk
      rw [List.drop_append_of_le_length (by rw [close1_length]; omega)] at h
      interval_cases k
      · exact not_prefix_append_left open2 close1 (by decide) (by decide) _ (by simpa using h)
      all_goals {
        have hh := head_eq_of_prefix h (by decide)
        rw [show open2.head? = some '<' from rfl] at hh
        simp [close1] at hh
      }

theorem stopCond_openBlocks (bs : List (Bool × List Char)) :
    stopCond (openBlocks bs) = true := by
  cases bs with
  | nil => rfl
  | cons b bs =>
    rw [openBlocks_cons]
    unfold openSeg
    cases hb : b.1
    · rw [if_neg (by simp), List.append_assoc]
      exact stopCond_of_open2 _
    · rw [if_pos rfl, List.append_assoc]
      exact stopCond_of_open1 _

theorem stopCond_halfBlocks (bs : List (Bool × List Char)) :
    stopCond (halfBlocks bs) = true := by
  cases bs with
  | nil => rfl
  | cons b bs =>
    rw [halfBlocks_cons]
    unfold halfSeg
    cases hb : b.1
    · rw [if_neg (by simp), List.append_assoc]
      exact stopCond_of_open2 _
    · rw [if_pos rfl]
      rw [show (open1 ++ b.2 ++ close1) ++ halfBlocks bs
          = open1 ++ (b.2 ++ (close1 ++ halfBlocks bs)) from by simp [List.append_assoc]]
      exact stopCond_of_open1 _

/-! ## The two closer passes on a canonical dialogue -/

theorem pass3Fuel_cons (b : Bool × List Char) (bs : List (Bool × List Char)) :
    pass3Fuel (b :: bs) = (if b.1 then 1 else 9 + b.2.length) + pass3Fuel bs := by
  simp [pass3Fuel]

theorem pass4Fuel_cons (b : Bool × List Char) (bs : List (Bool × List Char)) :
    pass4Fuel (b :: bs) = (if b.1 then 19 + b.2.length else 1) + pass4Fuel bs := by
  simp [pass4Fuel]

theorem addClosers1_openBlocks : ∀ (bs : List (Bool × List Char)),
    (∀ b ∈ bs, blockText b.2) → ∀ f,
      addClosersF open1 close1 (pass3Fuel bs + f) (openBlocks bs) = halfBlocks bs := by
  intro bs
  induction bs with
  | nil => intro _ f; exact addClosersF_nil _ _ _
  | cons b bs ih =>
    intro h f
    have hbt := h b (by simp)
    rw [openBlocks_cons, halfBlocks_cons]
    unfold openSeg halfSeg
    cases hb : b.1
    · rw [if_neg (by simp), if_neg (by simp)]
      rw [show pass3Fuel (b :: bs) + f = (open2 ++ b.2).length + (pass3Fuel bs + f) from by
        rw [pass3Fuel_cons, hb, if_neg (by simp), List.length_append, open2_length]
        omega]
      rw [addClosersF_copy open1 close1 (open2 ++ b.2) (openBlocks bs) (pass3Fuel bs + f)
        (fun i hi => no_o1_in_open2seg b.2 hbt.1 (openBlocks bs) i (by
          simp only [List.length_append, open2_length] at hi; omega))]
      rw [ih (fun x hx => h x (by simp [hx])) f]
    · rw [if_pos rfl, if_pos rfl]
      rw [show pass3Fuel (b :: bs) + f = (pass3Fuel bs + f) + 1 from by
        rw [pass3Fuel_cons, hb, if_pos rfl]
        omega]
      rw [List.append_assoc]
      rw [show open1 ++ (b.2 ++ openBlocks bs)
          = ('<' :: "Person1>".toList) ++ (b.2 ++ openBlocks bs) from rfl]
      rw [addClosersF_match open1 close1 '<' "Person1>".toList _ _ rfl]
      rw [takeContent_blockText b.2 hbt.1 hbt.2 _ (stopCond_openBlocks bs)]
      rw [ih (fun x hx => h x (by simp [hx])) f]

theorem addClosers2_halfBlocks : ∀ (bs : List (Bool × List Char)),
    (∀ b ∈ bs, blockText b.2) → ∀ f,
      addClosersF open2 close2 (pass4Fuel bs + f) (halfBlocks bs) = dialogue bs := by
  intro bs
  induction bs with
  | nil => intro _ f; exact addClosersF_nil _ _ _
  | cons b bs ih =>
    intro h f
    have hbt := h b (by simp)
    rw [halfBlocks_cons, dialogue_cons]
    unfold halfSeg dialogueBlock
    cases hb : b.1
    · rw [if_neg (by simp), if_neg (by simp)]
      rw [show pass4Fuel (b :: bs) + f = (pass4Fuel bs + f) + 1 from by
        rw [pass4Fuel_cons, hb, if_neg (by simp)]
        omega]
      rw [List.append_assoc]
      rw [show open2 ++ (b.2 ++ halfBlocks bs)
          = ('<' :: "Person2>".toList) ++ (b.2 ++ halfBlocks bs) from rfl]
      rw [addClosersF_match open2 close2 '<' "Person2>".toList _ _ rfl]
      rw [takeContent_blockText b.2 hbt.1 hbt.2 _ (stopCond_halfBlocks bs)]
      rw [ih (fun x hx => h x (by simp [hx])) f]
    · rw [if_pos rfl, if_pos rfl]
      rw [show pass4Fuel (b :: bs) + f
          = (open1 ++ b.2 ++ close1).length + (pass4Fuel bs + f) from by
        rw [pass4Fuel_cons, hb, if_pos rfl, List.length_append, List.length_append,
          open1_length, close1_length]
        omega]
      rw [addClosersF_copy open2 close2 (open1 ++ b.2 ++ close1) (halfBlocks bs)
        (pass4Fuel bs + f) (fun i hi => no_o2_in_closedseg b.2 hbt.1 (halfBlocks bs) i (by
          simp only [List.length_append, open1_length, close1_length] at hi; omega))]
      rw [ih (fun x hx => h x (by simp [hx])) f]

/-! ## The final strip on a canonical dialogue -/

theorem stripWs_id (l : List Char)
    (h1 : ∀ c, l.head? = some c → wsChar c = false)
    (h2 : ∀ c, l.reverse.head? = some c → wsChar c = false) : stripWs l = l := by
  have d1 : List.dropWhile wsChar l = l := by
    cases l with
    | nil => rfl
    | cons c t =>
      have hc := h1 c rfl
      rw [List.dropWhile_cons, if_neg (by simp [hc])]
  have d2 : List.dropWhile wsChar l.reverse = l.reverse := by
    cases hr : l.reverse with
    | nil => rfl
    | cons c t =>
      have hc := h2 c (by rw [hr]; rfl)
      rw [List.dropWhile_cons, if_neg (by simp [hc])]
  unfold stripWs
  rw [d1, d2, List.reverse_reverse]

theorem dialogue_last : ∀ (bs : List (Bool × List Char)) (b : Bool × List Char),
    ∃ Y, dialogue (b :: bs) = Y ++ ['>'] := by
  intro bs
  induction bs with
  | nil =>
    intro b
    cases hb : b.1
    · refine ⟨open2 ++ b.2 ++ "</Person2".toList, ?_⟩
      rw [dialogue_cons]
      unfold dialogueBlock
      rw [hb, if_neg (by simp)]
      rw [show dialogue [] = [] from rfl, List.append_nil]
      rw [show close2 = "</Person2".toList ++ ['>'] from rfl]
      simp [List.append_assoc]
    · refine ⟨open1 ++ b.2 ++ "</Person1".toList, ?_⟩
      rw [dialogue_cons]
      unfold dialogueBlock
      rw [hb, if_pos rfl]
      rw [show dialogue [] = [] from rfl, List.append_nil]
      rw [show close1 = "</Person1".toList ++ ['>'] from rfl]
      simp [List.append_assoc]
  | cons b2 bs ih =>
    intro b
    obtain ⟨Y, hY⟩ := ih b2
    refine ⟨dialogueBlock b.1 b.2 ++ Y, ?_⟩
    rw [dialogue_cons, hY, ← List.append_assoc]

theorem stripWs_dialogue (bs : List (Bool × List Char)) :
    stripWs (dialogue bs) = dialogue bs := by
  cases bs with
  | nil => rfl
  | cons b bs =>
    apply stripWs_id
    · intro c hc
      rw [dialogue_cons] at hc
      cases hb : b.1
      · rw [show dialogueBlock b.1 b.2 = open2 ++ b.2 ++ close2 from by
          unfold dialogueBlock; rw [hb, if_neg (by simp)]] at hc
        rw [show ((open2 ++ b.2 ++ close2) ++ dialogue bs).head? = some '<' from rfl] at hc
        injection hc with hc
        rw [← hc]
        decide
      · rw [show dialogueBlock b.1 b.2 = open1 ++ b.2 ++ close1 from by
          unfold dialogueBlock; rw [hb, if_pos rfl]] at hc
        rw [show ((open1 ++ b.2 ++ close1) ++ dialogue bs).head? = some '<' from rfl] at hc
        injection hc with hc
        rw [← hc]
        decide
    · intro c hc
      obtain ⟨Y, hY⟩ := dialogue_last bs b
      rw [hY, List.reverse_append] at hc
      rw [show ((['>'] : List Char).reverse ++ Y.reverse).head? = some '>' from rfl] at hc
      injection hc with hc
      rw [← hc]
      decide

theorem cleanTss_dialogue (bs : List (Bool × List Char)) (h : ∀ b ∈ bs, blockText b.2) :
    cleanTssList (dialogue bs) = dialogue bs := by
  have hlt : ∀ b ∈ bs, charFree '<' b.2 := fun b hb => (h b hb).1
  have hnl : ∀ b ∈ bs, charFree '\n' b.2 := fun b hb => (h b hb).2
  have h1 : removeTagsF ((dialogue bs).length + 1) (dialogue bs) = openBlocks bs := by
    rw [removeTagsF_fuel (dialogue bs).length (dialogue bs) ((dialogue bs).length + 1)
      (removeFuel bs + ((dialogue bs).length + 1)) (le_refl _) (by omega) (by omega)]
    exact removeTags_dialogue bs hlt _
  have h2 : collapseNlF ((openBlocks bs).length + 1) (openBlocks bs) = openBlocks bs :=
    collapseNlF_nlFree _ (charFree_openBlocks bs hnl) _ (by omega)
  have h3 : addClosersF open1 close1 ((openBlocks bs).length + 1) (openBlocks bs)
      = halfBlocks bs := by
    rw [addClosersF_fuel open1 close1 (by decide) (openBlocks bs).length (openBlocks bs)
      ((openBlocks bs).length + 1) (pass3Fuel bs + ((openBlocks bs).length + 1))
      (le_refl _) (by omega) (by omega)]
    exact addClosers1_openBlocks bs h _
  have h4 : addClosersF open2 close2 ((halfBlocks bs).length + 1) (halfBlocks bs)
      = dialogue bs := by
    rw [addClosersF_fuel open2 close2 (by decide) (halfBlocks bs).length (halfBlocks bs)
      ((halfBlocks bs).length + 1) (pass4Fuel bs + ((halfBlocks bs).length + 1))
      (le_refl _) (by omega) (by omega)]
    exact addClosers2_halfBlocks bs h _
  simp only [cleanTssList]
  rw [h1, h2, h3, h4]
  exact stripWs_dialogue bs

/-! ## Structural balance of the sanitizer output: position atoms -/

theorem prefix_append_iff_of_le (q B X : List Char) (h : q.length ≤ B.length) :
    q <+: B ++ X ↔ q <+: B := by
  constructor
  · intro hp
    rw [List.prefix_iff_eq_take, List.take_append_of_le_length h] at hp
    rw [List.prefix_iff_eq_take]
    exact hp
  · intro hp
    exact hp.trans (List.prefix_append B X)

/-- A tag whose tail is `'<'`-free cannot start in the last characters of
`B` and continue into a region that starts with `'<'`. -/
theorem spanning_lt (q B Z : List Char) (h1 : 0 < B.length) (h2 : B.length < q.length)
    (h3 : '<' ∉ q.drop 1) (hp : q <+: B ++ ('<' :: Z)) : False := by
  rw [List.prefix_iff_eq_take, List.take_append_eq_append_take,
    List.take_of_length_le (by omega)] at hp
  rw [show q.length - B.length = (q.length - B.length - 1) + 1 from by omega,
    List.take_succ_cons] at hp
  obtain ⟨W, hp2⟩ : ∃ W, q = B ++ '<' :: W := ⟨_, hp⟩
  have hd : q.drop B.length = '<' :: W := by
    rw [hp2]
    exact List.drop_left _ _
  have hmem : '<' ∈ q.drop B.length := by
    rw [hd]
    exact List.mem_cons_self _ _
  have h4 : (q.drop 1).drop (B.length - 1) = q.drop B.length := by
    rw [List.drop_drop]
    congr 1
    omega
  rw [← h4] at hmem
  exact h3 (List.mem_of_mem_drop hmem)

theorem no_open_at_close1 (X : List Char) (k : Nat) (hk : k < 10) :
    ¬ isOpenAt (close1 ++ X) k := by
  intro h
  unfold isOpenAt at h
  rw [List.drop_append_of_le_length (by rw [close1_length]; omega)] at h
  rcases h with h | h
  · interval_cases k
    · exact not_prefix_append_left open1 close1 (by decide) (by decide) _ (by simpa using h)
    all_goals {
      have hh := head_eq_of_prefix h (by decide)
      rw [show open1.head? = some '<' from rfl] at hh
      simp [close1] at hh
    }
  · interval_cases k
    · exact not_prefix_append_left open2 close1 (by decide) (by decide) _ (by simpa using h)
    all_goals {
      have hh := head_eq_of_prefix h (by decide)
      rw [show open2.head? = some '<' from rfl] at hh
      simp [close1] at hh
    }

theorem no_open_at_close2 (X : List Char) (k : Nat) (hk : k < 10) :
    ¬ isOpenAt (close2 ++ X) k := by
  intro h
  unfold isOpenAt at h
  rw [List.drop_append_of_le_length (by rw [close2_length]; omega)] at h
  rcases h with h | h
  · interval_cases k
    · exact not_prefix_append_left open1 close2 (by decide) (by decide) _ (by simpa using h)
    all_goals {
      have hh := head_eq_of_prefix h (by decide)
      rw [show open1.head? = some '<' from rfl] at hh
      simp [close2] at hh
    }
  · interval_cases k
    · exact not_prefix_append_left open2 close2 (by decide) (by decide) _ (by simpa using h)
    all_goals {
      have hh := head_eq_of_prefix h (by decide)
      rw [show open2.head? = some '<' from rfl] at hh
      simp [close2] at hh
    }

theorem no_open_inside_open1 (X : List Char) (k : Nat) (h0 : 0 < k) (hk : k < 9) :
    ¬ isOpenAt (open1 ++ X) k := by
  intro h
  unfold isOpenAt at h
  rw [List.drop_append_of_le_length (by rw [open1_length]; omega)] at h
  rcases h with h | h
  · interval_cases k <;> {
      have hh := head_eq_of_prefix h (by decide)
      rw [show open1.head? = some '<' from rfl] at hh
      simp [open1] at hh
    }
  · interval_cases k <;> {
      have hh := head_eq_of_prefix h (by decide)
      rw [show open2.head? = some '<' from rfl] at hh
      simp [open1] at hh
    }

theorem no_open_inside_open2 (X : List Char) (k : Nat) (h0 : 0 < k) (hk : k < 9) :
    ¬ isOpenAt (open2 ++ X) k := by
  intro h
  unfold isOpenAt at h
  rw [List.drop_append_of_le_length (by rw [open2_length]; omega)] at h
  rcases h with h | h
  · interval_cases k <;> {
      have hh := head_eq_of_prefix h (by decide)
      rw [show open1.head? = some '<' from rfl] at hh
      simp [open2] at hh
    }
  · interval_cases k <;> {
      have hh := head_eq_of_prefix h (by decide)
      rw [show open2.head? = some '<' from rfl] at hh
      simp [open2] at hh
    }

/-! ## Structural balance: basic properties of `opensClosed` -/

theorem opensClosed_nil (opn cls : List Char) (h : opn ≠ []) : opensClosed opn cls [] := by
  intro i hp
  rw [List.drop_nil] at hp
  obtain ⟨r, hr⟩ := hp
  exfalso
  cases opn with
  | nil => exact h rfl
  | cons a t => cases hr

theorem opensClosed_tail (opn cls : List Char) (c : Char) (t : List Char)
    (h : opensClosed opn cls (c :: t)) : opensClosed opn cls t := by
  intro i hp
  obtain ⟨j, hj1, hj2, hj3⟩ := h (i + 1) (by simpa using hp)
  refine ⟨j - 1, by omega, ?_, ?_⟩
  · rw [show j = (j - 1) + 1 from by omega] at hj2
    simpa using hj2
  · intro k hk1 hk2 hko
    refine hj3 (k + 1) (by omega) (by omega) ?_
    unfold isOpenAt at hko ⊢
    simpa using hko

theorem opensClosed_lift_one (opn cls PRE R : List Char) (h : opensClosed opn cls R)
    (i : Nat) (hi : PRE.length ≤ i) (hp : opn <+: (PRE ++ R).drop i) :
    ∃ j, i < j ∧ cls <+: (PRE ++ R).drop j ∧
      ∀ k, i < k → k < j → ¬ isOpenAt (PRE ++ R) k := by
  have hdrop : ∀ d, (PRE ++ R).drop (PRE.length + d) = R.drop d := fun d => by
    rw [List.drop_append]
  obtain ⟨j2, hj1, hj2, hj3⟩ := h (i - PRE.length) (by
    rw [← hdrop (i - PRE.length), show PRE.length + (i - PRE.length) = i from by omega]
    exact hp)
  refine ⟨PRE.length + j2, by omega, ?_, ?_⟩
  · rw [hdrop j2]
    exact hj2
  · intro k hk1 hk2 hko
    unfold isOpenAt at hko
    rw [show k = PRE.length + (k - PRE.length) from by omega, hdrop (k - PRE.length)] at hko
    exact hj3 (k - PRE.length) (by omega) (by omega) hko

/-! ## Structural balance: content regions and stop positions -/

theorem takeContent_no_stop : ∀ (l : List Char) (k : Nat), k < (takeContent l).1.length →
    stopCond ((takeContent l).1.drop k ++ (takeContent l).2) = false := by
  intro l
  induction l with
  | nil => intro k hk; simp [takeContent] at hk
  | cons c t ih =>
    intro k hk
    by_cases hs : stopCond (c :: t) = true
    · simp only [takeContent, if_pos hs] at hk
      simp at hk
    · simp only [takeContent, if_neg hs] at hk ⊢
      match k with
      | 0 =>
        rw [List.drop_zero, List.cons_append, takeContent_append t]
        exact Bool.eq_false_iff.2 hs
      | k + 1 =>
        rw [List.drop_succ_cons]
        exact ih k (by simpa using hk)

theorem stopCond_false_no_open (s : List Char) (h : stopCond s = false) :
    ¬ open1 <+: s ∧ ¬ open2 <+: s := by
  unfold stopCond at h
  constructor <;> intro hp
  · rw [List.isPrefixOf_iff_prefix.2 hp] at h
    simp at h
  · rw [List.isPrefixOf_iff_prefix.2 hp] at h
    simp at h

/-! ## Structural balance: the closer pass neither creates nor destroys
preserved-tag openings at copy positions -/

theorem addClosersF_reflectD (opn cls : List Char) (hopn : opn.head? = some '<')
    (htail : '<' ∉ opn.drop 1) :
    ∀ (fuel : Nat) (t : List Char) (d : Nat), 0 < d →
      opn.drop d <+: addClosersF opn cls fuel t → opn.drop d <+: t := by
  intro fuel
  induction fuel with
  | zero => intro t d _ h; exact h
  | succ fuel ih =>
    intro t d hd h
    match t with
    | [] =>
      rw [addClosersF_nil] at h
      exact h
    | c :: t =>
      by_cases hq : opn.drop d = []
      · rw [hq]; exact List.nil_prefix
      · obtain ⟨u, hu⟩ : ∃ u, opn = '<' :: u := by
          cases opn with
          | nil => cases hopn
          | cons a u =>
            refine ⟨u, ?_⟩
            injection hopn with h2
            rw [h2]
        subst hu
        by_cases hp : ('<' :: u).isPrefixOf (c :: t) = true
        · exfalso
          simp only [addClosersF, if_pos hp] at h
          rw [List.cons_append, List.cons_append, List.cons_append] at h
          have hh := head_eq_of_prefix h hq
          simp only [List.head?_cons] at hh
          have hdd : d < ('<' :: u).length := by
            by_contra hcon
            exact hq (List.drop_eq_nil_of_le (by omega))
          rw [List.drop_eq_getElem_cons hdd, List.head?_cons] at hh
          injection hh with hh
          refine htail ?_
          have hmem : '<' ∈ ('<' :: u).drop d := by
            rw [List.drop_eq_getElem_cons hdd, ← hh]
            exact List.mem_cons_self _ _
          have h4 : (('<' :: u).drop 1).drop (d - 1) = ('<' :: u).drop d := by
            rw [List.drop_drop]
            congr 1
            omega
          rw [← h4] at hmem
          exact List.mem_of_mem_drop hmem
        · simp only [addClosersF, if_neg hp] at h
          have hdd : d < ('<' :: u).length := by
            by_contra hcon
            exact hq (List.drop_eq_nil_of_le (by omega))
          rw [List.drop_eq_getElem_cons hdd] at h ⊢
          have hcp := List.cons_prefix_cons.1 h
          exact List.cons_prefix_cons.2 ⟨hcp.1, ih t (d + 1) (by omega) hcp.2⟩

theorem addClosersF_reflect0 (opn cls : List Char) (hopn : opn.head? = some '<')
    (htail : '<' ∉ opn.drop 1) :
    ∀ (fuel : Nat) (t : List Char), opn <+: addClosersF opn cls fuel t → opn <+: t := by
  intro fuel t h
  match fuel with
  | 0 => exact h
  | fuel + 1 =>
    match t with
    | [] =>
      rw [addClosersF_nil] at h
      exact h
    | c :: t =>
      by_cases hp : opn.isPrefixOf (c :: t) = true
      · exact List.isPrefixOf_iff_prefix.1 hp
      · simp only [addClosersF, if_neg hp] at h
        obtain ⟨u, hu⟩ : ∃ u, opn = '<' :: u := by
          cases opn with
          | nil => cases hopn
          | cons a u =>
            refine ⟨u, ?_⟩
            injection hopn with h2
            rw [h2]
        subst hu
        have hcp := List.cons_prefix_cons.1 h
        refine List.cons_prefix_cons.2 ⟨hcp.1, ?_⟩
        have hrd := addClosersF_reflectD ('<' :: u) cls hopn htail fuel t 1 (by omega)
          (by simpa using hcp.2)
        simpa using hrd

/-! ## Structural balance: one rewritten block satisfies the property -/

theorem opensClosed_block (opn cls : List Char)
    (hmem : opn = open1 ∨ opn = open2) (hcls : cls = close1 ∨ cls = close2)
    (r1 r2 REC : List Char)
    (hstop : ∀ k, k < r1.length → stopCond (r1.drop k ++ r2) = false)
    (hREC : opensClosed opn cls REC) :
    opensClosed opn cls (opn ++ r1 ++ cls ++ REC) := by
  have hopn9 : opn.length = 9 := by rcases hmem with rfl | rfl <;> rfl
  have hcls10 : cls.length = 10 := by rcases hcls with rfl | rfl <;> rfl
  obtain ⟨cl, hcl⟩ : ∃ cl, cls = '<' :: cl := by
    rcases hcls with rfl | rfl
    · exact ⟨_, rfl⟩
    · exact ⟨_, rfl⟩
  have hIntAtom : ∀ (X : List Char) (k : Nat), 0 < k → k < 9 → ¬ isOpenAt (opn ++ X) k := by
    rcases hmem with rfl | rfl
    · exact fun X k h0 hk => no_open_inside_open1 X k h0 hk
    · exact fun X k h0 hk => no_open_inside_open2 X k h0 hk
  have hClsAtom : ∀ (X : List Char) (k : Nat), k < 10 → ¬ isOpenAt (cls ++ X) k := by
    rcases hcls with rfl | rfl
    · exact fun X k hk => no_open_at_close1 X k hk
    · exact fun X k hk => no_open_at_close2 X k hk
  have hOpnOpen : ∀ (L : List Char) (k : Nat), opn <+: L.drop k → isOpenAt L k := by
    rcases hmem with rfl | rfl
    · exact fun L k h => Or.inl h
    · exact fun L k h => Or.inr h
  have hContent : ∀ k, k < r1.length → ¬ isOpenAt (r1.drop k ++ (cls ++ REC)) 0 := by
    intro k hk hopen
    have hsf := stopCond_false_no_open _ (hstop k hk)
    have hgen : ∀ tag : List Char, tag.length = 9 → '<' ∉ tag.drop 1 →
        tag <+: r1.drop k ++ (cls ++ REC) → tag <+: r1.drop k ++ r2 := by
      intro tag h9 htl hpre
      rcases le_or_lt tag.length (r1.drop k).length with hle | hlt
      · exact ((prefix_append_iff_of_le tag _ _ hle).1 hpre).trans (List.prefix_append _ _)
      · exfalso
        have h0 : 0 < (r1.drop k).length := by
          rw [List.length_drop]
          omega
        refine spanning_lt tag (r1.drop k) (cl ++ REC) h0 hlt htl ?_
        rw [hcl, List.cons_append] at hpre
        exact hpre
    rcases hopen with h | h
    · exact hsf.1 (hgen open1 rfl (by decide) (by simpa using h))
    · exact hsf.2 (hgen open2 rfl (by decide) (by simpa using h))
  intro i hpi
  rcases Nat.lt_or_ge i (19 + r1.length) with hi | hi
  · rcases Nat.eq_zero_or_pos i with rfl | hi0
    · refine ⟨9 + r1.length, by omega, ?_, ?_⟩
      · rw [show opn ++ r1 ++ cls ++ REC = (opn ++ r1) ++ (cls ++ REC) from by
          simp [List.append_assoc], show (9 : Nat) + r1.length = (opn ++ r1).length from by
          rw [List.length_append, hopn9], List.drop_left]
        exact List.prefix_append _ _
      · intro k hk1 hk2 hko
        rcases Nat.lt_or_ge k 9 with hk9 | hk9
        · refine hIntAtom (r1 ++ (cls ++ REC)) k hk1 hk9 ?_
          unfold isOpenAt at hko ⊢
          rw [show opn ++ (r1 ++ (cls ++ REC)) = opn ++ r1 ++ cls ++ REC from by
            simp [List.append_assoc]]
          exact hko
        · refine hContent (k - 9) (by omega) ?_
          unfold isOpenAt at hko ⊢
          rw [show opn ++ r1 ++ cls ++ REC = opn ++ (r1 ++ (cls ++ REC)) from by
            simp [List.append_assoc], show k = opn.length + (k - 9) from by
            rw [hopn9]; omega, List.drop_append,
            List.drop_append_of_le_length (by omega)] at hko
          exact hko
    · exfalso
      rcases Nat.lt_or_ge i 9 with hi9 | hi9
      · refine hIntAtom (r1 ++ (cls ++ REC)) i hi0 hi9 (hOpnOpen _ i ?_)
        rw [show opn ++ (r1 ++ (cls ++ REC)) = opn ++ r1 ++ cls ++ REC from by
          simp [List.append_assoc]]
        exact hpi
      · rcases Nat.lt_or_ge i (9 + r1.length) with hir | hir
        · refine hContent (i - 9) (by omega) (hOpnOpen _ 0 ?_)
          have hpi2 := hpi
          rw [show opn ++ r1 ++ cls ++ REC = opn ++ (r1 ++ (cls ++ REC)) from by
            simp [List.append_assoc], show i = opn.length + (i - 9) from by
            rw [hopn9]; omega, List.drop_append,
            List.drop_append_of_le_length (by omega)] at hpi2
          exact hpi2
        · refine hClsAtom REC (i - (9 + r1.length)) (by omega) (hOpnOpen _ _ ?_)
          have hpi2 := hpi
          rw [show opn ++ r1 ++ cls ++ REC = (opn ++ r1) ++ (cls ++ REC) from by
            simp [List.append_assoc], show i = (opn ++ r1).length + (i - (9 + r1.length)) from by
            rw [List.length_append, hopn9]; omega, List.drop_append] at hpi2
          exact hpi2
  · refine opensClosed_lift_one opn cls ((opn ++ r1) ++ cls) REC hREC i ?_ hpi
    rw [List.length_append, List.length_append, hopn9, hcls10]
    omega

/-! ## Structural balance: each closer pass establishes it for its own tag -/

theorem addClosersF_opensClosed (opn cls : List Char)
    (hmem : opn = open1 ∨ opn = open2) (hcls : cls = close1 ∨ cls = close2) :
    ∀ (fuel : Nat) (s : List Char), s.length < fuel →
      opensClosed opn cls (addClosersF opn cls fuel s) := by
  have hopnh : opn.head? = some '<' := by rcases hmem with rfl | rfl <;> rfl
  have hopnt : '<' ∉ opn.drop 1 := by rcases hmem with rfl | rfl <;> decide
  have hopn9 : opn.length = 9 := by rcases hmem with rfl | rfl <;> rfl
  have hopnne : opn ≠ [] := by rcases hmem with rfl | rfl <;> decide
  intro fuel
  induction fuel with
  | zero => intro s hs; omega
  | succ fuel ih =>
    intro s hs
    match s with
    | [] =>
      rw [addClosersF_nil]
      exact opensClosed_nil opn cls hopnne
    | c :: t =>
      simp only [List.length_cons] at hs
      by_cases hp : opn.isPrefixOf (c :: t) = true
      · obtain ⟨m, hm⟩ := List.isPrefixOf_iff_prefix.1 hp
        have hdm : (c :: t).drop opn.length = m := by
          rw [← hm]
          exact List.drop_left _ _
        have hmlen : opn.length + m.length = t.length + 1 := by
          have h2 := congrArg List.length hm
          rw [List.length_append] at h2
          simpa using h2
        have hr2 := takeContent_length m
        simp only [addClosersF, if_pos hp]
        rw [hdm]
        exact opensClosed_block opn cls hmem hcls _ _ _ (takeContent_no_stop m)
          (ih (takeContent m).2 (by omega))
      · simp only [addClosersF, if_neg hp]
        intro i hpi
        match i with
        | 0 =>
          exfalso
          have hh : opn <+: addClosersF opn cls (fuel + 1) (c :: t) := by
            simp only [addClosersF, if_neg hp]
            exact hpi
          exact hp (List.isPrefixOf_iff_prefix.2
            (addClosersF_reflect0 opn cls hopnh hopnt (fuel + 1) (c :: t) hh))
        | i + 1 =>
          exact opensClosed_lift_one opn cls [c] (addClosersF opn cls fuel t)
            (ih t (by omega)) (i + 1) (by simp) hpi

/-! ## Structural balance: the second pass only inserts closers at stop
positions, and that preserves the property for the first tag -/

theorem insAt_refl : ∀ t : List Char, InsAt t t := by
  intro t
  induction t with
  | nil => exact InsAt.nil
  | cons c t ih => exact InsAt.cons c ih

theorem insAt_append_left : ∀ (A : List Char) {t o : List Char},
    InsAt t o → InsAt (A ++ t) (A ++ o) := by
  intro A
  induction A with
  | nil => intro t o h; exact h
  | cons c A ih => intro t o h; exact InsAt.cons c (ih h)

theorem addClosersF_insAt : ∀ (fuel : Nat) (t : List Char),
    InsAt t (addClosersF open2 close2 fuel t) := by
  intro fuel
  induction fuel with
  | zero => intro t; exact insAt_refl t
  | succ fuel ih =>
    intro t
    match t with
    | [] =>
      rw [addClosersF_nil]
      exact InsAt.nil
    | c :: t =>
      by_cases hp : open2.isPrefixOf (c :: t) = true
      · obtain ⟨m, hm⟩ := List.isPrefixOf_iff_prefix.1 hp
        have hdm : (c :: t).drop open2.length = m := by
          rw [← hm]
          exact List.drop_left _ _
        simp only [addClosersF, if_pos hp]
        rw [hdm]
        obtain ⟨r1, r2, hr⟩ : ∃ r1 r2, takeContent m = (r1, r2) := ⟨_, _, rfl⟩
        have hm2 : m = r1 ++ r2 := by
          rw [← takeContent_append m, hr]
        have hst : stopCond r2 = true := by
          have h2 := takeContent_stopCond m
          rw [hr] at h2
          exact h2
        rw [hr]
        rw [← hm, hm2]
        rw [show open2 ++ (r1 ++ r2) = (open2 ++ r1) ++ r2 from
          (List.append_assoc _ _ _).symm,
          show open2 ++ (r1, r2).1 ++ close2 ++ addClosersF open2 close2 fuel (r1, r2).2
            = (open2 ++ r1) ++ (close2 ++ addClosersF open2 close2 fuel r2) from by
          simp [List.append_assoc]]
        exact insAt_append_left (open2 ++ r1) (InsAt.ins hst (ih r2))
      · simp only [addClosersF, if_neg hp]
        exact InsAt.cons c (ih t)

theorem insAt_reflect (tag : List Char) (hmem : tag = open1 ∨ tag = open2) :
    ∀ {t o : List Char}, InsAt t o → ∀ d, tag.drop d <+: o → tag.drop d <+: t := by
  have htl : '<' ∉ tag.drop 1 := by rcases hmem with rfl | rfl <;> decide
  have h9 : tag.length = 9 := by rcases hmem with rfl | rfl <;> rfl
  intro t o hio
  induction hio with
  | nil => intro d h; exact h
  | cons c hio ih =>
    intro d h
    by_cases hq : tag.drop d = []
    · rw [hq]
      exact List.nil_prefix
    · have hdd : d < tag.length := by
        by_contra hcon
        exact hq (List.drop_eq_nil_of_le (by omega))
      rw [List.drop_eq_getElem_cons hdd] at h ⊢
      have hcp := List.cons_prefix_cons.1 h
      exact List.cons_prefix_cons.2 ⟨hcp.1, ih (d + 1) hcp.2⟩
  | ins hst hio ih =>
    rename_i t2 o2
    intro d h
    by_cases hq : tag.drop d = []
    · rw [hq]
      exact List.nil_prefix
    · exfalso
      rcases Nat.eq_zero_or_pos d with rfl | hd
      · have h2 : tag <+: close2 ++ o2 := by simpa using h
        rw [List.prefix_iff_eq_take,
          List.take_append_of_le_length (by rw [h9, close2_length]; omega), h9] at h2
        rcases hmem with rfl | rfl <;> exact absurd h2 (by decide)
      · have hh := head_eq_of_prefix h hq
        rw [show (close2 ++ o2).head? = some '<' from rfl] at hh
        have hdd : d < tag.length := by
          by_contra hcon
          exact hq (List.drop_eq_nil_of_le (by omega))
        rw [List.drop_eq_getElem_cons hdd, List.head?_cons] at hh
        injection hh with hh
        refine htl ?_
        have hmm2 : '<' ∈ tag.drop d := by
          rw [List.drop_eq_getElem_cons hdd, ← hh]
          exact List.mem_cons_self _ _
        have h3 : (tag.drop 1).drop (d - 1) = tag.drop d := by
          rw [List.drop_drop]
          congr 1
          omega
        rw [← h3] at hmm2
        exact List.mem_of_mem_drop hmm2

theorem insAt_keeps_close1 : ∀ {t o : List Char}, InsAt t o →
    ∀ d, 0 < d → close1.drop d <+: t → close1.drop d <+: o := by
  intro t o hio
  induction hio with
  | nil => intro d _ h; exact h
  | cons c hio ih =>
    intro d hd h
    by_cases hq : close1.drop d = []
    · rw [hq]
      exact List.nil_prefix
    · have hdd : d < close1.length := by
        by_contra hcon
        exact hq (List.drop_eq_nil_of_le (by omega))
      rw [List.drop_eq_getElem_cons hdd] at h ⊢
      have hcp := List.cons_prefix_cons.1 h
      exact List.cons_prefix_cons.2 ⟨hcp.1, ih (d + 1) (by omega) hcp.2⟩
  | ins hst hio ih =>
    rename_i t2 o2
    intro d hd h
    by_cases hq : close1.drop d = []
    · rw [hq]
      exact List.nil_prefix
    · exfalso
      have hdd : d < close1.length := by
        by_contra hcon
        exact hq (List.drop_eq_nil_of_le (by omega))
      have hh := head_eq_of_prefix h hq
      rw [List.drop_eq_getElem_cons hdd, List.head?_cons] at hh
      unfold stopCond at hst
      simp only [Bool.or_eq_true] at hst
      rcases hst with ((h1 | h2) | h3) | h4
      · rw [List.isEmpty_iff] at h1
        rw [h1] at hh
        cases hh
      · have h2b := eq_of_beq h2
        rw [h2b, List.head?_cons] at hh
        injection hh with hh
        have : close1[d] ∈ close1 := List.getElem_mem hdd
        rw [← hh] at this
        exact absurd this (by decide)
      · have hp3 := List.isPrefixOf_iff_prefix.1 h3
        have hh3 := head_eq_of_prefix hp3 (by decide)
        rw [show open1.head? = some '<' from rfl] at hh3
        rw [hh3] at hh
        injection hh with hh
        have hmm2 : '<' ∈ close1.drop d := by
          rw [List.drop_eq_getElem_cons hdd, hh]
          exact List.mem_cons_self _ _
        have h5 : (close1.drop 1).drop (d - 1) = close1.drop d := by
          rw [List.drop_drop]
          congr 1
          omega
        rw [← h5] at hmm2
        exact absurd (List.mem_of_mem_drop hmm2) (by decide)
      · have hp3 := List.isPrefixOf_iff_prefix.1 h4
        have hh3 := head_eq_of_prefix hp3 (by decide)
        rw [show open2.head? = some '<' from rfl] at hh3
        rw [hh3] at hh
        injection hh with hh
        have hmm2 : '<' ∈ close1.drop d := by
          rw [List.drop_eq_getElem_cons hdd, hh]
          exact List.mem_cons_self _ _
        have h5 : (close1.drop 1).drop (d - 1) = close1.drop d := by
          rw [List.drop_drop]
          congr 1
          omega
        rw [← h5] at hmm2
        exact absurd (List.mem_of_mem_drop hmm2) (by decide)

theorem insAt_track : ∀ {t o : List Char}, InsAt t o →
    ∀ j, close1 <+: t.drop j → (∀ k, k < j → ¬ isOpenAt t k) →
      ∃ j2, close1 <+: o.drop j2 ∧ ∀ k, k < j2 → ¬ isOpenAt o k := by
  intro t o hio
  induction hio with
  | nil =>
    intro j h _
    exfalso
    rw [List.drop_nil] at h
    have h2 := h.length_le
    rw [close1_length] at h2
    simp at h2
  | cons c hio ih =>
    rename_i t2 o2
    intro j h hno
    match j with
    | 0 =>
      have h2 : close1 <+: c :: t2 := by simpa using h
      rw [show close1 = '<' :: "/Person1>".toList from rfl] at h2
      have hcp := List.cons_prefix_cons.1 h2
      have hk := insAt_keeps_close1 hio 1 (by omega) (by
        show close1.drop 1 <+: t2
        exact hcp.2)
      refine ⟨0, ?_, fun k hk2 => absurd hk2 (by omega)⟩
      show close1 <+: c :: o2
      rw [show close1 = '<' :: "/Person1>".toList from rfl]
      exact List.cons_prefix_cons.2 ⟨hcp.1, hk⟩
    | j + 1 =>
      obtain ⟨j2, hj2, hno2⟩ := ih j (by simpa using h) (fun k hk => by
        have h3 := hno (k + 1) (by omega)
        intro hko
        refine h3 ?_
        unfold isOpenAt at hko ⊢
        simpa using hko)
      refine ⟨j2 + 1, by simpa using hj2, ?_⟩
      intro k hk
      match k with
      | 0 =>
        have h0 := hno 0 (by omega)
        intro hko
        refine h0 ?_
        unfold isOpenAt at hko ⊢
        rcases hko with hx | hx
        · exact Or.inl (insAt_reflect open1 (Or.inl rfl) (InsAt.cons c hio) 0 hx)
        · exact Or.inr (insAt_reflect open2 (Or.inr rfl) (InsAt.cons c hio) 0 hx)
      | k + 1 =>
        intro hko
        refine hno2 k (by omega) ?_
        unfold isOpenAt at hko ⊢
        simpa using hko
  | ins hst hio ih =>
    rename_i t2 o2
    intro j h hno
    obtain ⟨j2, hj2, hno2⟩ := ih j h hno
    refine ⟨10 + j2, ?_, ?_⟩
    · rw [show (10 : Nat) + j2 = close2.length + j2 from by rw [close2_length],
        List.drop_append]
      exact hj2
    · intro k hk
      rcases Nat.lt_or_ge k 10 with hk10 | hk10
      · exact no_open_at_close2 o2 k hk10
      · intro hko
        refine hno2 (k - 10) (by omega) ?_
        unfold isOpenAt at hko ⊢
        rw [show k = close2.length + (k - 10) from by rw [close2_length]; omega,
          List.drop_append] at hko
        exact hko

theorem insAt_preserves : ∀ {t o : List Char}, InsAt t o →
    opensClosed open1 close1 t → opensClosed open1 close1 o := by
  intro t o hio
  induction hio with
  | nil => intro _; exact opensClosed_nil open1 close1 (by decide)
  | cons c hio ih =>
    rename_i t2 o2
    intro ht
    have ho2 : opensClosed open1 close1 o2 := ih (opensClosed_tail open1 close1 c t2 ht)
    intro i hpi
    match i with
    | 0 =>
      have hrefl : open1 <+: c :: t2 :=
        insAt_reflect open1 (Or.inl rfl) (InsAt.cons c hio) 0 hpi
      obtain ⟨j, hj0, hjc, hjno⟩ := ht 0 hrefl
      obtain ⟨j2, hj2c, hj2no⟩ := insAt_track hio (j - 1) (by
          rw [show j = (j - 1) + 1 from by omega] at hjc
          simpa using hjc) (fun k hk => by
          have h3 := hjno (k + 1) (by omega) (by omega)
          intro hko
          refine h3 ?_
          unfold isOpenAt at hko ⊢
          simpa using hko)
      refine ⟨j2 + 1, by omega, by simpa using hj2c, ?_⟩
      intro k hk1 hk2
      match k, hk1 with
      | k + 1, _ =>
        intro hko
        refine hj2no k (by omega) ?_
        unfold isOpenAt at hko ⊢
        simpa using hko
    | i + 1 =>
      exact opensClosed_lift_one open1 close1 [c] o2 ho2 (i + 1) (by simp) hpi
  | ins hst hio ih =>
    rename_i t2 o2
    intro ht
    have ho2 := ih ht
    intro i hpi
    rcases Nat.lt_or_ge i 10 with hi | hi
    · exact absurd (Or.inl hpi) (no_open_at_close2 o2 i hi)
    · exact opensClosed_lift_one open1 close1 close2 o2 ho2 i (by rw [close2_length]; omega) hpi

/-! ## Structural balance: surviving the final strip -/

theorem stripWs_decomp (l : List Char) :
    ∃ P S, l = P ++ stripWs l ++ S
      ∧ (∀ c ∈ P, wsChar c = true) ∧ (∀ c ∈ S, wsChar c = true) := by
  refine ⟨l.takeWhile wsChar, ((l.dropWhile wsChar).reverse.takeWhile wsChar).reverse,
    ?_, ?_, ?_⟩
  · have h1 : l.takeWhile wsChar ++ l.dropWhile wsChar = l :=
      List.takeWhile_append_dropWhile wsChar l
    have h2 : (l.dropWhile wsChar).reverse.takeWhile wsChar
        ++ (l.dropWhile wsChar).reverse.dropWhile wsChar = (l.dropWhile wsChar).reverse :=
      List.takeWhile_append_dropWhile wsChar (l.dropWhile wsChar).reverse
    have h3 : l.dropWhile wsChar
        = ((l.dropWhile wsChar).reverse.dropWhile wsChar).reverse
          ++ ((l.dropWhile wsChar).reverse.takeWhile wsChar).reverse := by
      have h4 := congrArg List.reverse h2
      rw [List.reverse_append, List.reverse_reverse] at h4
      exact h4.symm
    calc l = l.takeWhile wsChar ++ l.dropWhile wsChar := h1.symm
      _ = l.takeWhile wsChar ++ (((l.dropWhile wsChar).reverse.dropWhile wsChar).reverse
            ++ ((l.dropWhile wsChar).reverse.takeWhile wsChar).reverse) := by rw [← h3]
      _ = l.takeWhile wsChar ++ stripWs l
            ++ ((l.dropWhile wsChar).reverse.takeWhile wsChar).reverse := by
          rw [show stripWs l = ((l.dropWhile wsChar).reverse.dropWhile wsChar).reverse
            from rfl]
          exact (List.append_assoc _ _ _).symm
  · exact fun c hc => List.mem_takeWhile_imp hc
  · exact fun c hc => List.mem_takeWhile_imp (List.mem_reverse.1 hc)

theorem prefix_nonws_append_ws (q B S : List Char) (hq : ∀ c ∈ q, wsChar c = false)
    (hS : ∀ c ∈ S, wsChar c = true) (h : q <+: B ++ S) : q <+: B := by
  rcases le_or_lt q.length B.length with hle | hlt
  · exact (prefix_append_iff_of_le q B S hle).1 h
  · exfalso
    rw [List.prefix_iff_eq_take, List.take_append_eq_append_take] at h
    rcases hW : S.take (q.length - B.length) with _ | ⟨w, wr⟩
    · rw [hW, List.append_nil] at h
      have h2 := congrArg List.length h
      rw [List.length_take] at h2
      omega
    · have hwS : w ∈ S := List.mem_of_mem_take (by rw [hW]; exact List.mem_cons_self _ _)
      have hwq : w ∈ q := by
        rw [h, hW]
        exact List.mem_append.2 (Or.inr (List.mem_cons_self _ _))
      exact Bool.false_ne_true ((hq w hwq).symm.trans (hS w hwS))

theorem opensClosed_strip (tag cls : List Char)
    (htag : tag = open1 ∨ tag = open2)
    (hclsh : cls.head? = some '<') (hclsw : ∀ c ∈ cls, wsChar c = false)
    (o : List Char) (h : opensClosed tag cls o) : opensClosed tag cls (stripWs o) := by
  obtain ⟨P, S, hdec, hP, hS⟩ := stripWs_decomp o
  have htne : 0 < tag.length := by rcases htag with rfl | rfl <;> decide
  have hclsne : cls ≠ [] := by
    intro he
    rw [he] at hclsh
    cases hclsh
  intro i hpi
  have hiC : i ≤ (stripWs o).length := by
    by_contra hcon
    rw [List.drop_eq_nil_of_le (by omega)] at hpi
    have h2 := hpi.length_le
    rw [List.length_nil] at h2
    omega
  have hoi : tag <+: o.drop (P.length + i) := by
    rw [hdec, List.append_assoc, List.drop_append, List.drop_append_of_le_length hiC]
    exact hpi.trans (List.prefix_append _ _)
  obtain ⟨j, hj1, hj2, hj3⟩ := h (P.length + i) hoi
  have hjP : P.length ≤ j := by
    by_contra hcon
    have hj2b := hj2
    rw [hdec, List.append_assoc, List.drop_append_of_le_length (by omega)] at hj2b
    rcases hPd : P.drop j with _ | ⟨p0, pr⟩
    · have h4 := congrArg List.length hPd
      rw [List.length_drop] at h4
      simp at h4
      omega
    · rw [hPd] at hj2b
      have hh := head_eq_of_prefix hj2b hclsne
      rw [hclsh, List.cons_append, List.head?_cons] at hh
      injection hh with hh
      have hp0 : p0 ∈ P := List.mem_of_mem_drop (by
        rw [hPd]
        exact List.mem_cons_self _ _)
      have h5 := hP p0 hp0
      rw [hh] at h5
      exact absurd h5 (by decide)
  have hjC : j < P.length + (stripWs o).length := by
    by_contra hcon
    have hj2b := hj2
    rw [hdec, List.append_assoc, show j = P.length + (j - P.length) from by omega,
      List.drop_append, show j - P.length = (stripWs o).length
        + (j - P.length - (stripWs o).length) from by omega, List.drop_append] at hj2b
    rcases hSd : S.drop (j - P.length - (stripWs o).length) with _ | ⟨s0, sr⟩
    · rw [hSd] at hj2b
      obtain ⟨r, hr⟩ := hj2b
      cases cls with
      | nil => exact hclsne rfl
      | cons a u => cases hr
    · rw [hSd] at hj2b
      have hh := head_eq_of_prefix hj2b hclsne
      rw [hclsh, List.head?_cons] at hh
      injection hh with hh
      have hs0 : s0 ∈ S := List.mem_of_mem_drop (by
        rw [hSd]
        exact List.mem_cons_self _ _)
      have h5 := hS s0 hs0
      rw [hh] at h5
      exact absurd h5 (by decide)
  refine ⟨j - P.length, by omega, ?_, ?_⟩
  · have hj2b := hj2
    rw [hdec, List.append_assoc, show j = P.length + (j - P.length) from by omega,
      List.drop_append, List.drop_append_of_le_length (by omega)] at hj2b
    exact prefix_nonws_append_ws cls _ S hclsw hS hj2b
  · intro k hk1 hk2 hko
    refine hj3 (P.length + k) (by omega) (by omega) ?_
    unfold isOpenAt at hko ⊢
    rw [hdec, List.append_assoc, List.drop_append,
      List.drop_append_of_le_length (by omega)]
    rcases hko with hx | hx
    · exact Or.inl (hx.trans (List.prefix_append _ _))
    · exact Or.inr (hx.trans (List.prefix_append _ _))

/-! # Claims -/

/-- C3 (counterexample): in the google overlay branch the two role tracks
are not equal after a turn is processed.  With one turn of durations
`(2, 1.5)` seconds and overlaps `0.3` for both clips, every silence is
positive (no clamping occurs anywhere in this trace), and after the turn
`combined_q` has length `2.9` while `combined_a` has length `3.2`. -/
theorem google_turn_tracks_differ :
    (googleRun [(2, 3/10, 3/2, 3/10)]).qLen ≠ (googleRun [(2, 3/10, 3/2, 3/10)]).aLen := by
  norm_num [googleRun, googleTurn, googleStep, googleInit, silence_duration, silentLen,
    max_def]

/-- C3 (amended): as long as every clip is at least as long as the two
overlaps it must absorb (every computed `silence_duration` is nonnegative,
so pydub's clamping of negative silent durations never fires), after
processing each turn the two google tracks differ by exactly the most
recent overlap (`combined_a` is ahead by `last_overlap_duration`); they
have equal length only after the final trailing silence is appended to
`combined_q`.  Quantifying over all no-clamp turn lists covers every turn
boundary. -/
theorem google_overlay_alignment (ts : List (ℚ × ℚ × ℚ × ℚ)) (hts : noClampRun ts) :
    (googleRun ts).aLen - (googleRun ts).qLen = (googleRun ts).lastOverlap
    ∧ (googleFinalize (googleRun ts)).qLen = (googleFinalize (googleRun ts)).aLen := by
  have h := googleFold_diff ts googleInit (by norm_num [googleInit]) hts
  have hnn : 0 ≤ (googleRun ts).lastOverlap := h.2 (le_refl 0)
  have hsil : silentLen (googleRun ts).lastOverlap = (googleRun ts).lastOverlap := by
    unfold silentLen
    exact max_eq_right hnn
  refine ⟨h.1, ?_⟩
  simp only [googleFinalize]
  rw [hsil]
  have h1 := h.1
  simp only [googleRun] at *
  linarith

/-- Witness for C3 (amended): one turn of durations `(2, 1.5)` with
overlaps `0.3` satisfies the no-clamp condition; after the turn the tracks
differ by the last overlap and only the trailing silence equalizes them. -/
theorem google_overlay_alignment_w :
    (googleRun [(2, 3/10, 3/2, 3/10)]).aLen - (googleRun [(2, 3/10, 3/2, 3/10)]).qLen
      = (googleRun [(2, 3/10, 3/2, 3/10)]).lastOverlap
    ∧ (googleFinalize (googleRun [(2, 3/10, 3/2, 3/10)])).qLen
      = (googleFinalize (googleRun [(2, 3/10, 3/2, 3/10)])).aLen :=
  google_overlay_alignment [(2, 3/10, 3/2, 3/10)]
    (by norm_num [noClampRun, noClampFrom])

/-- C4 (confirmed): for every clip, the silence segment appended to the
non-speaking role's track has non-negative length.  The computed
`silence_duration` is passed to `AudioSegment.silent` unchanged, but pydub
builds `int(frame_rate * duration / 1000)` frames of zero bytes and a byte
string times a negative count is empty, so when
`clipDuration - overlap - previousOverlap` is negative the appended
segment has length zero — the clamp at zero happens and nothing crashes. -/
theorem google_silence_clamped (d o : ℚ) (st : GoogleState) :
    0 ≤ silentLen (silence_duration d o st.lastOverlap)
    ∧ (googleStep true d o st).aLen
        = st.aLen + silentLen (silence_duration d o st.lastOverlap)
    ∧ (googleStep false d o st).qLen
        = st.qLen + silentLen (silence_duration d o st.lastOverlap)
    ∧ (silence_duration d o st.lastOverlap < 0 →
        silentLen (silence_duration d o st.lastOverlap) = 0) := by
  refine ⟨le_max_left 0 _, rfl, rfl, fun h => ?_⟩
  unfold silentLen
  exact max_eq_left (by linarith)

/-- Witness for C4 (confirmed): a clip of duration `0.1` with overlap
`0.3` after a previous overlap of `0.3` requests a silence of `-0.5`
seconds; the appended segment has length `0` and the other track keeps
length `0` instead of going negative. -/
theorem google_silence_clamped_w :
    silence_duration (1/10) (3/10) (3/10) < 0
    ∧ silentLen (silence_duration (1/10) (3/10) (3/10)) = 0
    ∧ (googleStep true (1/10) (3/10) ⟨0, 0, 3/10⟩).aLen = 0 := by
  have h := google_silence_clamped (1/10) (3/10) ⟨0, 0, 3/10⟩
  have hneg : silence_duration (1/10) (3/10) ((⟨0, 0, 3/10⟩ : GoogleState).lastOverlap)
      < 0 := by
    norm_num [silence_duration]
  refine ⟨hneg, h.2.2.2 hneg, ?_⟩
  rw [h.2.1, h.2.2.2 hneg]
  norm_num

/-- C8 (counterexample): the propagated error of a failed run is the
backend's error value unchanged, so it carries no turn or role context:
a five-turn run failing at turn 3's question and one failing at turn 1's
question propagate identical errors, and neither writes the output file. -/
theorem openai_error_no_context :
    (convertOpenai (fun c => if c = 5 then .error "boom" else .ok ())
        [("q1","a1"),("q2","a2"),("q3","a3"),("q4","a4"),("q5","a5")]).err
      = (convertOpenai (fun c => if c = 1 then .error "boom" else .ok ())
        [("q1","a1"),("q2","a2"),("q3","a3"),("q4","a4"),("q5","a5")]).err
    ∧ (convertOpenai (fun c => if c = 5 then .error "boom" else .ok ())
        [("q1","a1"),("q2","a2"),("q3","a3"),("q4","a4"),("q5","a5")]).err = some "boom"
    ∧ (convertOpenai (fun c => if c = 5 then .error "boom" else .ok ())
        [("q1","a1"),("q2","a2"),("q3","a3"),("q4","a4"),("q5","a5")]).finalWritten = false := by
  decide

/-- C8 (amended): when the backend call for clip number `j+1` fails with
error `e` (all earlier calls succeeding), the run propagates exactly `e`
(no turn or role context is attached) and the merged output file is not
written. -/
theorem openai_error_propagation {E : Type} (synth : Nat → Except E Unit)
    (pairs : List (String × String)) (j : Nat) (e : E)
    (hfail : synth (1 + j) = .error e) (hok : ∀ i, i < j → synth (1 + i) = .ok ())
    (hlt : j < 2 * pairs.length) :
    (convertOpenai synth pairs).err = some e
    ∧ (convertOpenai synth pairs).finalWritten = false := by
  have h := openaiLoop_error synth (2 * pairs.length) 1 j e hlt hfail hok
  simp [convertOpenai, h]

/-- Witness for C8 (amended) at a concrete failing run: five turns, the
backend failing at clip 5 (turn 3, role A). -/
theorem openai_error_propagation_w :
    (convertOpenai (fun c => if c = 5 then .error "boom" else .ok ())
        [("q1","a1"),("q2","a2"),("q3","a3"),("q4","a4"),("q5","a5")]).err = some "boom"
    ∧ (convertOpenai (fun c => if c = 5 then .error "boom" else .ok ())
        [("q1","a1"),("q2","a2"),("q3","a3"),("q4","a4"),("q5","a5")]).finalWritten = false :=
  openai_error_propagation _ _ 4 "boom" (by decide) (by decide) (by decide)

/-- C7: sequential assembly.  For every non-empty turn list, merging the
run's own temp files selects all of them and concatenates them in
turn-index order with role A's clip before role B's inside each turn
(counter order `1, 2, …, 2n`), with no gap: the assembled duration is the
exact sum of the individual clip durations in that order. -/
theorem openai_sequential_assembly (fmt : String) (pairs : List (String × String))
    (dur : String → ℚ) (hne : pairs ≠ []) :
    mergeOrder fmt (clipFiles fmt (2 * pairs.length)) = turnOrderFiles fmt pairs
    ∧ mergedDuration fmt (clipFiles fmt (2 * pairs.length)) dur
        = ((turnOrderFiles fmt pairs).map dur).sum := by
  have h1 : mergeOrder fmt (clipFiles fmt (2 * pairs.length))
      = clipFiles fmt (2 * pairs.length) := by
    unfold mergeOrder
    rw [filter_clipFiles]
    exact (sorted_clipFiles fmt _).insertionSort_eq
  constructor
  · rw [turnOrderFiles_eq_clipFiles]; exact h1
  · unfold mergedDuration
    rw [h1, turnOrderFiles_eq_clipFiles]

/-- Witness for C7 at a concrete one-turn run. -/
theorem openai_sequential_assembly_w :
    mergeOrder "mp3" (clipFiles "mp3" (2 * ([("q", "a")] : List (String × String)).length))
      = turnOrderFiles "mp3" [("q", "a")]
    ∧ mergedDuration "mp3"
        (clipFiles "mp3" (2 * ([("q", "a")] : List (String × String)).length)) (fun _ => 1)
      = ((turnOrderFiles "mp3" [("q", "a")]).map (fun _ => 1)).sum :=
  openai_sequential_assembly "mp3" [("q", "a")] (fun _ => 1) (by decide)

/-- C10: the merge step selects every listed file whose name ends with the
configured extension — not only this run's clips — and concatenates them in
natural-sort order of their names: the selection is exactly the
extension-filtered listing (as a permutation), the output is sorted by the
natural key (numeric substrings compared as integers), and on the listing
`["10.mp3", "9.mp3", "note.txt"]` the merge order is `["9.mp3", "10.mp3"]`,
placing the clip named 10 after the clip named 9 rather than in
lexicographic position. -/
theorem merge_selects_all_and_natural_sorts (fmt : String) (listing : List String) :
    (∀ f, f ∈ mergeOrder fmt listing ↔
      f ∈ listing ∧ ("." ++ fmt).toList.isSuffixOf f.toList = true)
    ∧ List.Sorted natKeyLe (mergeOrder fmt listing)
    ∧ mergeOrder "mp3" ["10.mp3", "9.mp3", "note.txt"] = ["9.mp3", "10.mp3"] := by
  refine ⟨?_, ?_, ?_⟩
  · intro f
    unfold mergeOrder
    rw [(List.perm_insertionSort natKeyLe _).mem_iff, List.mem_filter]
  · exact List.sorted_insertionSort natKeyLe _
  · decide

/-- Running `split_qa` on a string given by its character list: the scanned
string is the input followed by the appended ending block. -/
theorem split_qa_asString (l : List Char) (e : String) :
    split_qa l.asString e
      = (findQA (l ++ (open2 ++ (e.toList ++ close2)))).map
          (fun g => ((normWS g.1).asString, (normWS g.2).asString)) := by
  show (findQA (l.asString.toList ++ open2 ++ e.toList ++ close2)).map
      (fun g => ((normWS g.1).asString, (normWS g.2).asString)) = _
  rw [show l.asString.toList ++ open2 ++ e.toList ++ close2
      = l ++ (open2 ++ (e.toList ++ close2)) from by
    show l ++ open2 ++ e.toList ++ close2 = l ++ (open2 ++ (e.toList ++ close2))
    simp [List.append_assoc]]

/-- C1 (counterexample): the transcript
`"<Person1>Hi</Person1><Person2>Hello</Person2>"` contains exactly one
matched `(roleA, roleB)` tag-pair group, yet `split_qa` returns exactly
one turn, not two: no additional synthetic closing turn carrying the
ending message is appended when the transcript ends with a complete pair
(the appended `<Person2>Bye</Person2>` matches nothing, since the pair
pattern requires a `<Person1>` segment before it). -/
theorem split_qa_count_cex :
    (findQA "<Person1>Hi</Person1><Person2>Hello</Person2>".toList).length = 1
    ∧ (split_qa "<Person1>Hi</Person1><Person2>Hello</Person2>" "Bye").length = 1
    ∧ (split_qa "<Person1>Hi</Person1><Person2>Hello</Person2>" "Bye").length
        ≠ (findQA "<Person1>Hi</Person1><Person2>Hello</Person2>".toList).length + 1 := by
  refine ⟨by decide, by decide, by decide⟩

/-- C1 (amended): for a transcript made of complete tag-pair groups with
tag-free texts, `split_qa` returns exactly one turn per group — the same
count as the matched groups of the transcript itself, with no extra
synthetic turn; one additional turn, pairing the dangling question with the
ending message, appears exactly when the transcript ends with a trailing
unmatched `<Person1>…</Person1>` segment. -/
theorem split_qa_turn_count (ps : List (List Char × List Char)) (q : List Char) (e : String)
    (hps : ∀ p ∈ ps, charFree '<' p.1 ∧ charFree '<' p.2)
    (hq : charFree '<' q) (he : charFree '<' e.toList) :
    (findQA (renderPairs ps)).length = ps.length
    ∧ split_qa (renderPairs ps).asString e
        = ps.map (fun p => ((normWS p.1).asString, (normWS p.2).asString))
    ∧ (findQA (renderPairs ps ++ renderDangling q)).length = ps.length
    ∧ split_qa (renderPairs ps ++ renderDangling q).asString e
        = ps.map (fun p => ((normWS p.1).asString, (normWS p.2).asString))
          ++ [((normWS q).asString, (normWS e.toList).asString)] := by
  have hqa1 : findQA (renderPairs ps) = ps := by
    rw [← List.append_nil (renderPairs ps), findQA_renderPairs ps [] hps,
      show findQA ([] : List Char) = [] from rfl, List.append_nil]
  have hend : findQA (open2 ++ (e.toList ++ close2)) = [] :=
    findQA_noOpen _ (no_open1_in_endBlock e.toList he)
  refine ⟨by rw [hqa1], ?_, ?_, ?_⟩
  · rw [split_qa_asString, findQA_renderPairs ps _ hps, hend, List.append_nil]
  · rw [findQA_renderPairs ps _ hps, findQA_dangling q hq, List.append_nil]
  · rw [split_qa_asString]
    rw [show renderPairs ps ++ renderDangling q ++ (open2 ++ (e.toList ++ close2))
        = renderPairs ps ++ renderPair q e.toList from by
      simp [renderDangling, renderPair, List.append_assoc]]
    rw [findQA_renderPairs ps _ hps, findQA_renderPair_alone q e.toList hq he]
    simp

/-- Witness for C1 (amended): two complete turns plus a dangling question
`"Last"`, ending message `"Bye"`. -/
theorem split_qa_turn_count_w :
    (findQA (renderPairs [("Hi".toList, "Yo".toList)])).length = 1
    ∧ split_qa (renderPairs [("Hi".toList, "Yo".toList)]).asString "Bye"
        = [("Hi", "Yo")]
    ∧ (findQA (renderPairs [("Hi".toList, "Yo".toList)] ++ renderDangling "Last".toList)).length = 1
    ∧ split_qa (renderPairs [("Hi".toList, "Yo".toList)] ++ renderDangling "Last".toList).asString "Bye"
        = [("Hi", "Yo")] ++ [("Last", "Bye")] := by
  have h := split_qa_turn_count [("Hi".toList, "Yo".toList)] "Last".toList "Bye"
    (by decide) (by decide) (by decide)
  refine ⟨h.1, ?_, h.2.2.1, ?_⟩
  · rw [h.2.1]; decide
  · rw [h.2.2.2]; decide

/-- C2 (counterexample): segmenting
`"<Person1>Hi</Person1><Person2>Hello</Person2>"` with ending message
`"Bye"` does not return `[("Hi","Hello"), ("","Bye")]`: the appended
`<Person2>Bye</Person2>` produces no `("", "Bye")` turn, because every
match of the pair pattern must begin with a `<Person1>` segment. -/
theorem split_qa_hi_hello_cex :
    split_qa "<Person1>Hi</Person1><Person2>Hello</Person2>" "Bye"
      ≠ [("Hi", "Hello"), ("", "Bye")] := by decide

/-- C2 (amended): that transcript with ending message `"Bye"` returns
exactly `[("Hi", "Hello")]`. -/
theorem split_qa_hi_hello :
    split_qa "<Person1>Hi</Person1><Person2>Hello</Person2>" "Bye"
      = [("Hi", "Hello")] := by decide

/-- C9 (counterexample): a transcript containing an opening `<Person1>`
that is never closed does not, in general, yield zero turns: earlier
well-formed pairs still parse, and only the malformed trailing segment is
dropped. -/
theorem split_qa_unclosed_cex :
    split_qa "<Person1>Q</Person1><Person2>A</Person2><Person1>oops" "Bye"
      = [("Q", "A")]
    ∧ split_qa "<Person1>Q</Person1><Person2>A</Person2><Person1>oops" "Bye" ≠ [] := by
  refine ⟨by decide, by decide⟩

/-- C9 (amended): when the transcript contains no `</Person1>` closing tag
at all (and neither does the ending message), segmentation yields zero
turns: every opening `<Person1>` is then unclosed and the whole transcript
is dropped without emitting any partial turn. -/
theorem split_qa_no_closer (t e : String)
    (ht : findSub close1 t.toList = none) (he : findSub close1 e.toList = none) :
    split_qa t e = [] := by
  have hT : ∀ i, ¬ close1 <+: t.toList.drop i := (findSub_none_iff close1 _).1 ht
  have hE : ∀ i, ¬ close1 <+: e.toList.drop i := (findSub_none_iff close1 _).1 he
  have hS := no_close1_in_endBlock e.toList hE
  have hAll : ∀ i, ¬ close1 <+: (t.toList ++ (open2 ++ (e.toList ++ close2))).drop i := by
    refine no_occurrence_append hT hS ?_
    intro k hk0 hk10 _ hpre
    have hne : close1.drop k ≠ [] := by
      intro hnil
      have hlen := congrArg List.length hnil
      rw [List.length_drop, close1_length] at hlen
      rw [close1_length] at hk10
      simp at hlen
      omega
    have hh := head_eq_of_prefix hpre hne
    rw [show (open2 ++ (e.toList ++ close2)).head? = some '<' from rfl] at hh
    rw [close1_length] at hk10
    interval_cases k <;> exact absurd hh (by decide)
  show (findQA (t.toList ++ open2 ++ e.toList ++ close2)).map
      (fun g => ((normWS g.1).asString, (normWS g.2).asString)) = []
  rw [show t.toList ++ open2 ++ e.toList ++ close2
      = t.toList ++ (open2 ++ (e.toList ++ close2)) from by simp [List.append_assoc],
    findQA_noClose _ hAll]
  rfl

/-- Witness for C9 (amended) at the spec's scenario: a transcript that is
nothing but an unclosed `<Person1>` segment. -/
theorem split_qa_no_closer_w : split_qa "<Person1>Hi" "Bye" = [] :=
  split_qa_no_closer "<Person1>Hi" "Bye" (by decide) (by decide)

/-- C5 (counterexample): the sanitizer is not idempotent.  On
`"<Person1<x>foo>"` the first pass deletes only the inner `<x>` (the
lookahead sees `Person1` followed by a word-boundary at `<`), leaving
`"<Person1foo>"`; on a second run the lookahead fails on `Person1foo`
(no word boundary after `Person1`), so the whole remaining tag is deleted
and the result is `""`. -/
theorem clean_tss_not_idempotent :
    clean_tss_markup "<Person1<x>foo>" = "<Person1foo>"
    ∧ clean_tss_markup (clean_tss_markup "<Person1<x>foo>") = ""
    ∧ clean_tss_markup (clean_tss_markup "<Person1<x>foo>")
        ≠ clean_tss_markup "<Person1<x>foo>" := by
  refine ⟨by decide, by decide, by decide⟩

/-- C5 (amended): the sanitizer is idempotent on its intended range: if
`clean_tss_markup x` is a canonical sanitized dialogue (a concatenation of
closed `<PersonK>text</PersonK>` blocks whose texts contain no `<` and no
newline), then applying the sanitizer again changes nothing.  (Pass 1
deletes the closing tags of such a dialogue — the `/` is consumed by
`[^>]+` after the lookahead backtracks — and pass 3 re-inserts them at the
same positions, so the composite is the identity there.) -/
theorem clean_tss_idem_on_sanitized (x : String) (bs : List (Bool × List Char))
    (hbs : ∀ b ∈ bs, blockText b.2)
    (hx : clean_tss_markup x = (dialogue bs).asString) :
    clean_tss_markup (clean_tss_markup x) = clean_tss_markup x := by
  rw [hx]
  show (cleanTssList (dialogue bs).asString.toList).asString = (dialogue bs).asString
  rw [show (dialogue bs).asString.toList = dialogue bs from rfl]
  rw [cleanTss_dialogue bs hbs]

/-- Witness for C5 (amended): a two-block dialogue that the sanitizer maps
to itself; applying the sanitizer twice equals applying it once. -/
theorem clean_tss_idem_on_sanitized_w :
    clean_tss_markup (clean_tss_markup "<Person1>Hi</Person1><Person2>Yo</Person2>")
      = clean_tss_markup "<Person1>Hi</Person1><Person2>Yo</Person2>" :=
  clean_tss_idem_on_sanitized "<Person1>Hi</Person1><Person2>Yo</Person2>"
    [(true, "Hi".toList), (false, "Yo".toList)] (by decide) (by decide)

/-- C6 (confirmed): for every input string, in the sanitizer's output every
occurrence of a preserved opening tag (`<Person1>` or `<Person2>`) is
followed by an occurrence of its matching closing tag with no preserved-tag
opening strictly in between — i.e. before the next preserved-tag opening or
end of text — even when the input omitted the closing tag.  The two
closer-adding passes establish the property for their own tag on arbitrary
input, the second pass only ever inserts `</Person2>` at stop positions
(which cannot break a `</Person1>` witness), and the final strip removes
only whitespace at the two ends. -/
theorem clean_tss_opens_closed (s : String) :
    opensClosed open1 close1 (clean_tss_markup s).toList
    ∧ opensClosed open2 close2 (clean_tss_markup s).toList := by
  have he : (clean_tss_markup s).toList = cleanTssList s.toList := rfl
  rw [he]
  simp only [cleanTssList]
  constructor
  · refine opensClosed_strip open1 close1 (Or.inl rfl) rfl (by decide) _ ?_
    refine insAt_preserves (addClosersF_insAt _ _) ?_
    exact addClosersF_opensClosed open1 close1 (Or.inl rfl) (Or.inl rfl) _ _ (by omega)
  · refine opensClosed_strip open2 close2 (Or.inr rfl) rfl (by decide) _ ?_
    exact addClosersF_opensClosed open2 close2 (Or.inr rfl) (Or.inr rfl) _ _ (by omega)
